import Mathlib

/-!
Shallow embedding of the core of the EventStore/nexus observability pipeline,
with theorems checking the natural-language specification against the code.

Conventions of the embedding:
* Rust `f64` metric values are modelled as exact rationals (`ℚ`); the spec and
  the claims describe the arithmetic of the algorithms, not IEEE rounding.
* Rust `u32`/`usize` are modelled as `Nat`.
* `HashSet<MetricEntry>` (set keyed by the custom `MetricEntry` equality) is
  modelled as a `List Metric` together with explicit get/take/insert/replace
  operations keyed by `Metric.entryKey`; the custom `PartialEq`/`Hash` of
  `MetricEntry` compares exactly the components collected in `EntryKey`.
* `BTreeMap<String, String>` tags are modelled as an association list,
  `BTreeSet<String>` as a `List String` with duplicate-free insertion.
* `Vec::sort_by` is a stable sort; it is modelled by `List.insertionSort`
  (also stable), with the same comparator (compare the pair components
  `.1`, i.e. the distribution values).
-/

/-- Kind of a metric observation; embeds `MetricKind` from
`src/src/event/metric.rs`. -/
inductive MetricKind where
  | Incremental
  | Absolute
  deriving DecidableEq, Repr

/-- Statistic flavour of a distribution; embeds `StatisticKind` from
`src/src/event/metric.rs`. -/
inductive StatisticKind where
  | Histogram
  | Summary
  deriving DecidableEq, Repr

/-- Container for the actual value of a metric; embeds `MetricValue` from
`src/src/event/metric.rs` (`f64` as `ℚ`, `u32` as `Nat`). -/
inductive MetricValue where
  | Counter (value : ℚ)
  | Gauge (value : ℚ)
  | Set (values : List String)
  | Distribution (values : List ℚ) (sample_rates : List Nat)
      (statistic : StatisticKind)
  | AggregatedHistogram (buckets : List ℚ) (counts : List Nat) (count : Nat)
      (sum : ℚ)
  | AggregatedSummary (quantiles : List ℚ) (values : List ℚ) (count : Nat)
      (sum : ℚ)
  deriving DecidableEq, Repr

/-- A metric event; embeds `Metric` from `src/src/event/metric.rs`.
Timestamps are opaque to all the modelled code, so they are represented by a
`Nat` tick. The Rust field `namespace` is called `nameSpace` here because
`namespace` is a Lean keyword. -/
structure Metric where
  name : String
  nameSpace : Option String
  timestamp : Option Nat
  tags : Option (List (String × String))
  kind : MetricKind
  value : MetricValue
  deriving DecidableEq, Repr

/-- Create a copy of the metric marked as absolute; embeds
`Metric::to_absolute`. -/
def Metric.to_absolute (m : Metric) : Metric :=
  { name := m.name
    nameSpace := m.nameSpace
    timestamp := m.timestamp
    tags := m.tags
    kind := MetricKind.Absolute
    value := m.value }

/-- Insertion of the elements of `values2` into the set `values`; models
`BTreeSet::extend` used by `Metric::update_value` for `Set` values (the
element order of the model list is an abstraction of the B-tree order; the
claims never inspect it). -/
def extendSet (values values2 : List String) : List String :=
  values2.foldl (fun acc v => if v ∈ acc then acc else acc ++ [v]) values

/-- Mutate the metric value by adding the value from another metric; embeds
`Metric::update_value` from `src/src/event/metric.rs`. Mismatched variants,
mismatched distribution statistics, and aggregated histograms with different
buckets or count-vector lengths fall through to the identity, exactly like
the wildcard arm of the Rust `match`. -/
def Metric.update_value (self other : Metric) : Metric :=
  match self.value, other.value with
  | MetricValue.Counter value, MetricValue.Counter value2 =>
    { self with value := MetricValue.Counter (value + value2) }
  | MetricValue.Gauge value, MetricValue.Gauge value2 =>
    { self with value := MetricValue.Gauge (value + value2) }
  | MetricValue.Set values, MetricValue.Set values2 =>
    { self with value := MetricValue.Set (extendSet values values2) }
  | MetricValue.Distribution values sample_rates statistic_a,
    MetricValue.Distribution values2 sample_rates2 statistic_b =>
    if statistic_a = statistic_b then
      { self with value := (MetricValue.Distribution (values ++ values2)
          (sample_rates ++ sample_rates2) statistic_a) }
    else self
  | MetricValue.AggregatedHistogram buckets counts count sum,
    MetricValue.AggregatedHistogram buckets2 counts2 count2 sum2 =>
    if buckets = buckets2 ∧ counts.length = counts2.length then
      { self with value := (MetricValue.AggregatedHistogram buckets
          (List.zipWith (· + ·) counts counts2) (count + count2) (sum + sum2)) }
    else self
  | _, _ => self

/-- Add the data from the other metric to this one; embeds `Metric::add` from
`src/src/event/metric.rs`: a no-op whenever `other` is absolute. -/
def Metric.add (self other : Metric) : Metric :=
  if other.kind = MetricKind.Absolute then self else self.update_value other

/-- Discriminant of a `MetricValue`, modelling `std::mem::discriminant` as
used by the `Hash`/`PartialEq` implementations of `MetricEntry` in
`src/src/sinks/util/buffer/metrics.rs`. -/
inductive ValueDisc where
  | counter
  | gauge
  | set
  | distribution
  | aggregatedHistogram
  | aggregatedSummary
  deriving DecidableEq, Repr

/-- Discriminant of the value of a metric. -/
def MetricValue.disc : MetricValue → ValueDisc
  | MetricValue.Counter _ => ValueDisc.counter
  | MetricValue.Gauge _ => ValueDisc.gauge
  | MetricValue.Set _ => ValueDisc.set
  | MetricValue.Distribution _ _ _ => ValueDisc.distribution
  | MetricValue.AggregatedHistogram _ _ _ _ => ValueDisc.aggregatedHistogram
  | MetricValue.AggregatedSummary _ _ _ _ => ValueDisc.aggregatedSummary

/-- The components compared by the custom `PartialEq`/`Hash` of `MetricEntry`
(`src/src/sinks/util/buffer/metrics.rs`): name, namespace, kind, tags, the
value discriminant, and for aggregated histograms/summaries the bucket or
quantile boundaries. -/
structure EntryKey where
  name : String
  nameSpace : Option String
  kind : MetricKind
  tags : Option (List (String × String))
  disc : ValueDisc
  boundaries : Option (List ℚ)
  deriving DecidableEq, Repr

/-- The `MetricEntry` key of a metric. -/
def Metric.entryKey (m : Metric) : EntryKey :=
  { name := m.name
    nameSpace := m.nameSpace
    kind := m.kind
    tags := m.tags
    disc := m.value.disc
    boundaries :=
      match m.value with
      | MetricValue.AggregatedHistogram buckets _ _ _ => some buckets
      | MetricValue.AggregatedSummary quantiles _ _ _ => some quantiles
      | _ => none }

/-- Model of `HashSet::get` keyed by `MetricEntry` equality: the first
element with the given key. -/
def hsGet (k : EntryKey) : List Metric → Option Metric
  | [] => none
  | m :: l => if m.entryKey = k then some m else hsGet k l

/-- Removal of the first element with the given key (used to model
`HashSet::take` and `HashSet::replace`). -/
def hsRemove (k : EntryKey) : List Metric → List Metric
  | [] => []
  | m :: l => if m.entryKey = k then l else m :: hsRemove k l

/-- Model of `HashSet::take`: remove and return the element with the given
key, if present. -/
def hsTake (k : EntryKey) (l : List Metric) : Option Metric × List Metric :=
  match hsGet k l with
  | some e => (some e, hsRemove k l)
  | none => (none, l)

/-- Model of `HashSet::insert`: keep the existing element if one with the
same key is already present (that is `HashSet` insertion semantics). -/
def hsInsert (x : Metric) (l : List Metric) : List Metric :=
  match hsGet x.entryKey l with
  | some _ => l
  | none => l ++ [x]

/-- Model of `HashSet::replace`: remove any element with the same key, then
add the new element. -/
def hsReplace (x : Metric) (l : List Metric) : List Metric :=
  hsRemove x.entryKey l ++ [x]

/-- Result of a push into a batch buffer; embeds `PushResult` from
`src/src/sinks/util/batch.rs` (the `Ok` payload is the is-full flag). -/
inductive PushResult where
  | Ok (full : Bool)
  | Overflow (item : Metric)
  deriving DecidableEq, Repr

/-- The metric batching buffer; embeds `MetricBuffer` from
`src/src/sinks/util/buffer/metrics.rs`. Both hash sets are modelled as lists
keyed by `Metric.entryKey`. -/
structure MetricBuffer where
  state : List Metric
  metrics : List Metric
  max_events : Nat
  deriving DecidableEq, Repr

/-- A fresh buffer with empty state, as built by `MetricBuffer::new` via
`new_with_state(max_events, HashSet::new())`. -/
def MetricBuffer.new (max_events : Nat) : MetricBuffer :=
  { state := [], metrics := [], max_events := max_events }

/-- Embeds `MetricBuffer::push` (`src/src/sinks/util/buffer/metrics.rs`,
`impl Batch for MetricBuffer`). The four arms of the Rust `match` on
`(item.kind, &item.value)` appear in source order. In the absolute-counter
arm, `existing.add(&item)` adds the incoming *absolute* item (not the delta)
into the existing outgoing entry, exactly as the source does. -/
def MetricBuffer.push (b : MetricBuffer) (item : Metric) :
    MetricBuffer × PushResult :=
  if b.metrics.length ≥ b.max_events then
    (b, PushResult.Overflow item)
  else
    let b2 :=
      match item.kind, item.value with
      | MetricKind.Absolute, MetricValue.Counter value =>
        match hsGet item.entryKey b.state with
        | some st =>
          match st.value with
          | MetricValue.Counter value0 =>
            let delta : Metric :=
              { name := item.name
                nameSpace := item.nameSpace
                timestamp := item.timestamp
                tags := item.tags
                kind := MetricKind.Incremental
                value := MetricValue.Counter (value - value0) }
            let metrics2 :=
              match hsTake delta.entryKey b.metrics with
              | (some existing, rest) => hsInsert (existing.add item) rest
              | (none, _) => hsInsert delta b.metrics
            { b with metrics := metrics2, state := hsReplace item b.state }
          | _ =>
            -- unreachable: a state entry found under a counter-discriminant
            -- key is a counter; mirrors the refutable `if let` pattern.
            { b with state := hsInsert item b.state }
        | none => { b with state := hsInsert item b.state }
      | MetricKind.Incremental, MetricValue.Gauge _ =>
        let new := item.to_absolute
        match hsTake new.entryKey b.metrics with
        | (some existing, rest) =>
          { b with metrics := hsInsert (existing.add item) rest }
        | (none, _) =>
          let initial :=
            match hsGet new.entryKey b.state with
            | some dflt => dflt
            | none =>
              { name := item.name
                nameSpace := item.nameSpace
                timestamp := item.timestamp
                tags := item.tags
                kind := MetricKind.Absolute
                value := MetricValue.Gauge 0 }
          { b with metrics := hsInsert (initial.add item) b.metrics }
      | MetricKind.Absolute, _ =>
        { b with metrics := hsReplace item b.metrics }
      | _, _ =>
        match hsTake item.entryKey b.metrics with
        | (some existing, rest) =>
          { b with metrics := hsInsert (existing.add item) rest }
        | (none, _) =>
          { b with metrics := hsInsert item b.metrics }
    (b2, PushResult.Ok (b2.metrics.length ≥ b2.max_events))

/-- Comparator of the distribution sort in `compress_distribution`:
`a.0.partial_cmp(&b.0)` orders the pairs by their value component. -/
def distLe (a b : ℚ × Nat) : Prop :=
  a.1 ≤ b.1

instance : DecidableRel distLe :=
  fun a b => inferInstanceAs (Decidable (a.1 ≤ b.1))

/-- The accumulation loop of `compress_distribution`
(`src/src/sinks/util/buffer/metrics.rs`): running over the sorted pairs with
the current run value `prev` and accumulated rate `acc`, equal values are
folded into `acc` and a change of value pushes the finished `(prev, acc)`
pair; the final pair is pushed after the loop. -/
def compressLoop (prev : ℚ) (acc : Nat) :
    List (ℚ × Nat) → List (ℚ × Nat)
  | [] => [(prev, acc)]
  | (v, c) :: rest =>
    if v = prev then compressLoop prev (acc + c) rest
    else (prev, acc) :: compressLoop v c rest

/-- The pair-level body of `compress_distribution`: stable-sort the pairs by
value, then run the accumulation loop starting from the first sorted value
with a zero accumulator (`prev_value = pairs[0].0; acc = 0`). -/
def compressPairs (pairs : List (ℚ × Nat)) : List (ℚ × Nat) :=
  match List.insertionSort distLe pairs with
  | [] => []
  | (v0, c0) :: rest => compressLoop v0 0 ((v0, c0) :: rest)

/-- Embeds `compress_distribution` from
`src/src/sinks/util/buffer/metrics.rs`: empty inputs short-circuit to
`([], [])`; otherwise the zipped pairs are sorted by value and consecutive
equal values are collapsed, summing their rates. -/
def compress_distribution (values : List ℚ) (sample_rates : List Nat) :
    List ℚ × List Nat :=
  if values = [] ∨ sample_rates = [] then ([], [])
  else
    let out := compressPairs (values.zip sample_rates)
    (out.map Prod.fst, out.map Prod.snd)

/-- Total sample rate recorded for value `v` in a pair list: sum of the
rates of the pairs whose value is `v` (specification vocabulary for the
collapse pass of `compress_distribution`). -/
def rateSumAt (v : ℚ) (l : List (ℚ × Nat)) : Nat :=
  ((l.filter fun q => q.1 = v).map Prod.snd).sum

instance : IsTotal (ℚ × Nat) distLe :=
  ⟨fun a b => le_total a.1 b.1⟩

instance : IsTrans (ℚ × Nat) distLe :=
  ⟨fun _ _ _ h1 h2 => le_trans h1 h2⟩

/-- Embeds `MetricBuffer::finish`: every distribution in the outgoing batch
has its value compressed; all other metrics pass through unchanged. -/
def MetricBuffer.finish (b : MetricBuffer) : List Metric :=
  b.metrics.map fun m =>
    match m.value with
    | MetricValue.Distribution values sample_rates statistic =>
      let compressed := compress_distribution values sample_rates
      { m with value :=
          (MetricValue.Distribution compressed.1 compressed.2 statistic) }
    | _ => m

/-- Folding a list of pushed metrics into a buffer (each `push` applied in
order, keeping the buffer and dropping the `PushResult`). -/
def MetricBuffer.pushAll (b : MetricBuffer) (items : List Metric) :
    MetricBuffer :=
  items.foldl (fun acc i => (acc.push i).1) b

/-!
Embedding of the line aggregator (`src/src/line_agg.rs`). Lines are `String`s
(the `Bytes` payload), regexes are modelled as boolean predicates on the line
(`Regex::is_match`), and the per-key `HashMap` of buffered aggregates is an
association list. The `DelayQueue` of timeouts only carries wall-clock
deadlines; the model keeps the queue of inserted keys but no clock.
-/

/-- Mode of operation of the line aggregator; embeds `Mode` from
`src/src/line_agg.rs`. -/
inductive Mode where
  | ContinueThrough
  | ContinuePast
  | HaltBefore
  | HaltWith
  deriving DecidableEq, Repr

/-- Configuration of the line aggregator; embeds `Config` from
`src/src/line_agg.rs`, with the two regexes as match predicates and the
wall-clock timeout omitted. -/
structure AggConfig where
  start_pattern : String → Bool
  condition_pattern : String → Bool
  mode : Mode

/-- A buffered multi-line aggregate; embeds `Aggregate` from
`src/src/line_agg.rs`: the buffered lines in arrival order plus the context
of the first line. -/
structure Aggregate (C : Type) where
  lines : List String
  context : C
  deriving DecidableEq, Repr

/-- Embeds `Aggregate::new`. -/
def Aggregate.new {C : Type} (first_line : String) (context : C) :
    Aggregate C :=
  { lines := [first_line], context := context }

/-- Embeds `Aggregate::add_next_line`. -/
def Aggregate.add_next_line {C : Type} (a : Aggregate C) (line : String) :
    Aggregate C :=
  { a with lines := a.lines ++ [line] }

/-- Embeds `Aggregate::merge`: join the lines with a newline, keep the
context of the first line. -/
def Aggregate.merge {C : Type} (a : Aggregate C) : String × C :=
  (String.intercalate "\n" a.lines, a.context)

/-- Amount of lines emitted in response to a single input line; embeds
`Emit` from `src/src/line_agg.rs`. -/
inductive Emit (T : Type) where
  | one (a : T)
  | two (a b : T)
  deriving DecidableEq, Repr

/-- Lookup in the per-key buffer map (`HashMap::entry` occupied check). -/
def alistGet {K A : Type} [DecidableEq K] (k : K) :
    List (K × A) → Option A
  | [] => none
  | (k2, a) :: l => if k2 = k then some a else alistGet k l

/-- Update the value stored at an occupied key. -/
def alistSet {K A : Type} [DecidableEq K] (k : K) (a : A) :
    List (K × A) → List (K × A)
  | [] => []
  | (k2, a2) :: l =>
    if k2 = k then (k2, a) :: l else (k2, a2) :: alistSet k a l

/-- Remove the entry at a key (`Entry::remove_entry`). -/
def alistRemove {K A : Type} [DecidableEq K] (k : K) :
    List (K × A) → List (K × A)
  | [] => []
  | (k2, a2) :: l => if k2 = k then l else (k2, a2) :: alistRemove k l

/-- Core line aggregation state; embeds `Logic` from `src/src/line_agg.rs`
(the `DelayQueue` is kept as the list of keys inserted into it). -/
structure Logic (K C : Type) where
  config : AggConfig
  buffers : List (K × Aggregate C)
  timeouts : List K

/-- Embeds `Logic::new`. -/
def Logic.new {K C : Type} (config : AggConfig) : Logic K C :=
  { config := config, buffers := [], timeouts := [] }

/-- Embeds `Logic::handle_line` (`src/src/line_agg.rs`): the match on the
buffer entry for the key, with the four mode arms for an occupied entry and
the start-pattern check for a vacant one. Returns the updated state together
with the optional emission. -/
def Logic.handle_line {K C : Type} [DecidableEq K] (logic : Logic K C)
    (src : K) (line : String) (context : C) :
    Logic K C × Option (K × Emit (String × C)) :=
  match alistGet src logic.buffers with
  | some buffered =>
    let condition_matched := logic.config.condition_pattern line
    match logic.config.mode with
    | Mode.ContinueThrough =>
      if condition_matched then
        ({ logic with
           buffers := alistSet src (buffered.add_next_line line) logic.buffers },
         none)
      else
        ({ logic with buffers := alistRemove src logic.buffers },
         some (src, Emit.two buffered.merge (line, context)))
    | Mode.ContinuePast =>
      if condition_matched then
        ({ logic with
           buffers := alistSet src (buffered.add_next_line line) logic.buffers },
         none)
      else
        ({ logic with buffers := alistRemove src logic.buffers },
         some (src, Emit.one (buffered.add_next_line line).merge))
    | Mode.HaltBefore =>
      if condition_matched then
        ({ logic with buffers := alistRemove src logic.buffers },
         some (src, Emit.two buffered.merge (line, context)))
      else
        ({ logic with
           buffers := alistSet src (buffered.add_next_line line) logic.buffers },
         none)
    | Mode.HaltWith =>
      if condition_matched then
        ({ logic with buffers := alistRemove src logic.buffers },
         some (src, Emit.one (buffered.add_next_line line).merge))
      else
        ({ logic with
           buffers := alistSet src (buffered.add_next_line line) logic.buffers },
         none)
  | none =>
    if logic.config.start_pattern line then
      ({ logic with
         buffers := logic.buffers ++ [(src, Aggregate.new line context)]
         timeouts := logic.timeouts ++ [src] },
       none)
    else
      (logic, some (src, Emit.one (line, context)))

/-- Driver that mirrors `LineAgg::poll_next` together with
`handle_line_and_stashing` for a fully known input stream: a stashed line is
always processed before the next inner line; on `Emit::Two` the first line
is emitted and the second is stashed; when the inner stream ends the
remaining aggregates are drained (the drain vector is consumed by
`Vec::pop`, hence the reversal). Timer expiry never fires in this model
because the whole input is available without waiting. The `fuel` bounds the
number of processed (input or stashed) lines. -/
def lineAggRun {K C : Type} [DecidableEq K] (fuel : Nat) (logic : Logic K C)
    (stashed : Option (K × String × C)) (inputs : List (K × String × C)) :
    List (K × String × C) :=
  match fuel with
  | 0 => []
  | fuel + 1 =>
    match stashed with
    | some (src, line, context) =>
      match logic.handle_line src line context with
      | (logic2, none) => lineAggRun fuel logic2 none inputs
      | (logic2, some (s, Emit.one (l, c))) =>
        (s, l, c) :: lineAggRun fuel logic2 none inputs
      | (logic2, some (s, Emit.two (l1, c1) (l2, c2))) =>
        (s, l1, c1) :: lineAggRun fuel logic2 (some (s, l2, c2)) inputs
    | none =>
      match inputs with
      | [] =>
        (logic.buffers.map fun e => (e.1, e.2.merge.1, e.2.merge.2)).reverse
      | (src, line, context) :: rest =>
        match logic.handle_line src line context with
        | (logic2, none) => lineAggRun fuel logic2 none rest
        | (logic2, some (s, Emit.one (l, c))) =>
          (s, l, c) :: lineAggRun fuel logic2 none rest
        | (logic2, some (s, Emit.two (l1, c1) (l2, c2))) =>
          (s, l1, c1) :: lineAggRun fuel logic2 (some (s, l2, c2)) rest

/-- Match predicate of the regex `^[^\s]` (used as `start_pattern` in the
continue-through scenario): the line is nonempty and its first character is
not whitespace. -/
def startsNonWhitespace (s : String) : Bool :=
  match s.data with
  | [] => false
  | c :: _ => !c.isWhitespace

/-- Match predicate of the regex `^\s+` (used as `condition_pattern` in the
continue-through scenario): the line starts with a whitespace character. -/
def startsWhitespace (s : String) : Bool :=
  match s.data with
  | [] => false
  | c :: _ => c.isWhitespace

/-!
Embedding of the file source (`src/lib/file-source/src/file_watcher.rs` and
the reading phase of `src/lib/file-source/src/file_server.rs`). File bytes
are `Nat`s (u8 values), a reader is the list of bytes it will still yield
(the null reader is the empty list, a plain-file reader holds the file
content after the seek position), and `fill_buf` hands over everything the
reader has left in one chunk, which a `BufReader` over an in-memory source
is permitted to do. Wall-clock bookkeeping (`last_read_attempt`,
`last_read_success`) and device/inode identities are omitted.
-/

/-- Index of the first occurrence of the delimiter, modelling
`available.iter().position(|b| b == delim)`. -/
def findDelim (delim : Nat) : List Nat → Option Nat
  | [] => none
  | b :: rest =>
    if b = delim then some 0 else (findDelim delim rest).map (· + 1)

/-- One `loop` pass of `read_until_with_max_size`
(`src/lib/file-source/src/file_watcher.rs`), state-passing over the reader
contents. Arguments: remaining reader bytes, the persistent line buffer, the
`discarding` flag and the running `total_read`. Returns the consumed-bytes
total (the caller advances the position by it), the remaining reader bytes,
the new buffer, and `some total_read` for a complete line or `none` at
end-of-data. The structural `fuel` only bounds the iteration count; callers
pass at least `rest.length + 2`, which the loop can never exhaust since
every continuing iteration consumes input. -/
def readUntilGo (delim max_size : Nat) :
    Nat → List Nat → List Nat → Bool → Nat →
    Nat × List Nat × List Nat × Option Nat
  | 0, rest, buf, _, total => (total, rest, buf, none)
  | fuel + 1, rest, buf, discarding, total =>
    match findDelim delim rest with
    | some i =>
      let buf2 := if discarding then buf else buf ++ rest.take i
      let used := i + 1
      let total2 := total + used
      let discarding2 :=
        if !discarding && buf2.length > max_size then true else discarding
      if discarding2 then
        readUntilGo delim max_size fuel (rest.drop used) [] false total2
      else
        (total2, rest.drop used, buf2, some total2)
    | none =>
      let buf2 := if discarding then buf else buf ++ rest
      let used := rest.length
      let total2 := total + used
      let discarding2 :=
        if !discarding && buf2.length > max_size then true else discarding
      if used = 0 then (total2, [], buf2, none)
      else readUntilGo delim max_size fuel [] buf2 discarding2 total2

/-- Embeds `read_until_with_max_size`: run the loop from a clean
`discarding = false`, `total_read = 0` state over the reader bytes. -/
def read_until_with_max_size (delim max_size : Nat) (rest buf : List Nat) :
    Nat × List Nat × List Nat × Option Nat :=
  readUntilGo delim max_size (rest.length + 2) rest buf false 0

/-- The per-file polling reader; embeds `FileWatcher` from
`src/lib/file-source/src/file_watcher.rs`. `reader` is the byte stream the
underlying boxed reader will still produce. -/
structure FileWatcher where
  reader : List Nat
  file_position : Nat
  findable : Bool
  is_dead : Bool
  max_line_bytes : Nat
  buf : List Nat
  deriving DecidableEq, Repr

/-- Embeds `is_gzipped`: the content starts with the gzip header bytes
`1f 8b`. -/
def is_gzipped (content : List Nat) : Bool :=
  List.isPrefixOf [0x1f, 0x8b] content

/-- Embeds `FileWatcher::new` on a successfully opened file with the given
content. `too_old` is the `ignore_before` comparison outcome; `decoded`
stands for the output of the external `MultiGzDecoder` when a gzip file is
read from the start. A gzip file with a nonzero stored position (or one that
is too old) receives the null reader and keeps the stored position; a too
old plain file is seeked to its end; otherwise the reader starts at the
stored position. `findable` starts true, as in the source. -/
def FileWatcher.new (content : List Nat) (file_position : Nat)
    (too_old : Bool) (max_line_bytes : Nat) (decoded : List Nat) :
    FileWatcher :=
  if is_gzipped content then
    if file_position ≠ 0 ∨ too_old then
      { reader := [], file_position := file_position, findable := true,
        is_dead := false, max_line_bytes := max_line_bytes, buf := [] }
    else
      { reader := decoded, file_position := 0, findable := true,
        is_dead := false, max_line_bytes := max_line_bytes, buf := [] }
  else if too_old then
    { reader := [], file_position := content.length, findable := true,
      is_dead := false, max_line_bytes := max_line_bytes, buf := [] }
  else
    { reader := content.drop file_position, file_position := file_position,
      findable := true, is_dead := false, max_line_bytes := max_line_bytes,
      buf := [] }

/-- Embeds `FileWatcher::read_line`: run `read_until_with_max_size` with the
newline delimiter, advance the position by the consumed bytes, and on a
complete line hand out the buffer (emptied by `split().freeze()`). At
end-of-data a non-findable file is declared dead and the partial buffer is
returned; a findable one yields `none`. I/O errors cannot occur on the
in-memory reader. -/
def FileWatcher.read_line (w : FileWatcher) :
    FileWatcher × Option (List Nat) :=
  let r := read_until_with_max_size 10 w.max_line_bytes w.reader w.buf
  let pos2 := w.file_position + r.1
  match r.2.2.2 with
  | some _ =>
    ({ w with reader := r.2.1, file_position := pos2, buf := [] },
     some r.2.2.1)
  | none =>
    if !w.findable then
      ({ w with reader := r.2.1, file_position := pos2, buf := [], is_dead := true },
       some r.2.2.1)
    else
      ({ w with reader := r.2.1, file_position := pos2, buf := r.2.2.1 },
       none)

/-- Driver that mirrors the reading phase of `FileServer::run`
(`src/lib/file-source/src/file_server.rs`) for one watcher over a static,
findable, fully written file: `read_line` is called repeatedly; an empty
line breaks the inner `while` without being pushed (outer iterations resume
reading, which for a static file is just a continuation), a non-empty line
is pushed, and `Ok(None)` ends the run (further outer iterations make no
progress). The scheduling between watchers, checkpointing and the
`max_read_bytes` pause only interleave these steps and are collapsed. The
`fuel` bounds the number of `read_line` calls; every completed line consumes
at least one byte, so `content.length + 1` calls always reach the end. -/
def runCollect (fuel : Nat) (w : FileWatcher) : List (List Nat) :=
  match fuel with
  | 0 => []
  | fuel + 1 =>
    match w.read_line with
    | (w2, some line) =>
      if line = [] then runCollect fuel w2 else line :: runCollect fuel w2
    | (_, none) => []

/-- Lines emitted by the file server for a static findable file with the
given content, when watching it from position 0. -/
def emittedLines (content : List Nat) (max_line_bytes : Nat) :
    List (List Nat) :=
  runCollect (content.length + 1)
    (FileWatcher.new content 0 false max_line_bytes [])

/-- The newline-delimited records of a file: `records rs` is the content
whose records are `rs`. A content made of the flattening of records each
followed by one newline byte has exactly those records. -/
def recordsContent (rs : List (List Nat)) : List Nat :=
  (rs.map (fun r => r ++ [10])).flatten

/-- Byte list of an ASCII string (test data helper). -/
def strBytes (s : String) : List Nat :=
  s.data.map Char.toNat

/-!
Test fixtures for concrete instances used by counterexamples and witnesses.
-/

/-- An absolute counter observation named `c`, bare of namespace/tags. -/
def cAbsCounter (v : ℚ) : Metric :=
  { name := "c", nameSpace := none, timestamp := none, tags := none,
    kind := MetricKind.Absolute, value := MetricValue.Counter v }

/-- An incremental gauge observation named `g`, bare of namespace/tags. -/
def gIncGauge (v : ℚ) : Metric :=
  { name := "g", nameSpace := none, timestamp := none, tags := none,
    kind := MetricKind.Incremental, value := MetricValue.Gauge v }

/-- An incremental histogram-distribution observation named `d`, bare of
namespace/tags, mirroring the source test
`metric_buffer_compress_distribution`. -/
def dIncDistribution (values : List ℚ) (sample_rates : List Nat) : Metric :=
  { name := "d", nameSpace := none, timestamp := none, tags := none,
    kind := MetricKind.Incremental,
    value := MetricValue.Distribution values sample_rates
      StatisticKind.Histogram }

/-- Match predicate of the regex `^START ` used by the halt-before fixture
(a prefix test on the character data). -/
def startsWithSTART (s : String) : Bool :=
  List.isPrefixOf "START ".data s.data

/-- Line aggregator configuration of the halt-before fixture: the start
pattern is the empty regex (matches every line), the condition pattern
matches lines starting with `START `, as in the source test
`two_lines_emit_with_halt_before`. -/
def haltBeforeConfig : AggConfig :=
  { start_pattern := fun _ => true
    condition_pattern := startsWithSTART
    mode := Mode.HaltBefore }

/-- The halt-before fixture state after buffering the line `part 0.1`. -/
def haltBeforeLogic1 : Logic String Unit :=
  ((Logic.new haltBeforeConfig : Logic String Unit).handle_line
    "test.log" "part 0.1" ()).1

/-- The watcher state installed for a refused gzip file: null reader,
preserved position, findable, empty buffer. -/
def nullReaderWatcher (pos max_line_bytes : Nat) : FileWatcher :=
  { reader := [], file_position := pos, findable := true, is_dead := false,
    max_line_bytes := max_line_bytes, buf := [] }

/-- Collect the results of `n` successive `read_line` calls on a watcher:
final watcher state plus every line handed out. -/
def iterateReadLine : Nat → FileWatcher → FileWatcher × List (List Nat)
  | 0, w => (w, [])
  | n + 1, w =>
    match w.read_line with
    | (w2, some line) =>
      let r := iterateReadLine n w2
      (r.1, line :: r.2)
    | (w2, none) =>
      let r := iterateReadLine n w2
      (r.1, r.2)

/-- Key distinctness of two metrics (the batch never holds two entries with
the same `MetricEntry` key). -/
def keyNe (a b : Metric) : Prop :=
  a.entryKey ≠ b.entryKey

/-- Per-entry invariant of the outgoing batch after pushing `items`:
counters are incremental, gauges absolute, and every other variant keeps the
`MetricEntry` key (hence the kind) of some pushed input. -/
def goodMetric (items : List Metric) (m : Metric) : Prop :=
  (m.value.disc = ValueDisc.counter → m.kind = MetricKind.Incremental) ∧
  (m.value.disc = ValueDisc.gauge → m.kind = MetricKind.Absolute) ∧
  (m.value.disc ≠ ValueDisc.counter → m.value.disc ≠ ValueDisc.gauge →
    ∃ x ∈ items, x.entryKey = m.entryKey)

/-- Reachable-buffer invariant: every outgoing entry is good, outgoing keys
are pairwise distinct, and the permanent state holds only absolute
counters. -/
def buffInv (items : List Metric) (b : MetricBuffer) : Prop :=
  (∀ m ∈ b.metrics, goodMetric items m) ∧
  b.metrics.Pairwise keyNe ∧
  (∀ m ∈ b.state,
    m.kind = MetricKind.Absolute ∧ m.value.disc = ValueDisc.counter)


/-!
Claim theorems for the line aggregator (C4, C5) and the gzip refusal (C6).
-/

/-- Claim C5: with mode ContinueThrough, start pattern matching the regex
`^[^\s]` and condition pattern matching `^\s+`, feeding the four lines
`first part`, ` second part`, ` last part`, `another normal message` on one
stream key (with the stream then ending) yields exactly the two outputs
`first part\n second part\n last part` and `another normal message`, in
that order. -/
theorem c5_continue_through_scenario :
    lineAggRun 12
      (Logic.new
        { start_pattern := startsNonWhitespace
          condition_pattern := startsWhitespace
          mode := Mode.ContinueThrough })
      none
      [("test.log", "first part", ()), ("test.log", " second part", ()),
       ("test.log", " last part", ()), ("test.log", "another normal message", ())]
      =
      [("test.log", "first part\n second part\n last part", ()),
       ("test.log", "another normal message", ())] := by
  decide

/-- Claim C4, counterexample: in HaltBefore mode with a start pattern that
matches every line (the empty regex, as in the source test
`two_lines_emit_with_halt_before`), the line `START msg 1` both produces an
`Emit::Two` and matches the start pattern, refuting the claim that the
second line of a `Two` never matches `start_pattern`: re-processed via the
stash, it starts a new group. -/
theorem c4_counterexample_two_with_start_match :
    (haltBeforeLogic1.handle_line "test.log" "START msg 1" ()).2
      = some ("test.log", Emit.two ("part 0.1", ()) ("START msg 1", ())) ∧
    haltBeforeConfig.start_pattern "START msg 1" = true :=
  ⟨by decide, rfl⟩

/-- Claim C4 as amended: an `Emit::Two` is produced only when the mode is
HaltBefore or ContinueThrough and the key has an active aggregate; the
incoming line terminates that group (in ContinueThrough it fails the
condition pattern, in HaltBefore it matches it), the first emitted item is
the merged group, the second is the incoming line itself (re-processed via
the stash, with no constraint on whether it matches the start pattern), and
the group is removed from the buffer map. -/
theorem c4_two_emission_characterization {K C : Type} [DecidableEq K]
    (logic : Logic K C) (src : K) (line : String) (context : C)
    (s : K) (a b : String × C)
    (h : (logic.handle_line src line context).2 = some (s, Emit.two a b)) :
    (logic.config.mode = Mode.HaltBefore ∨
      logic.config.mode = Mode.ContinueThrough) ∧
    s = src ∧ b = (line, context) ∧
    (∃ agg, alistGet src logic.buffers = some agg ∧ a = agg.merge) ∧
    (logic.handle_line src line context).1.buffers
      = alistRemove src logic.buffers ∧
    (logic.config.mode = Mode.ContinueThrough →
      logic.config.condition_pattern line = false) ∧
    (logic.config.mode = Mode.HaltBefore →
      logic.config.condition_pattern line = true) := by
  cases hg : alistGet src logic.buffers with
  | none =>
    by_cases hs : logic.config.start_pattern line = true <;>
      simp [Logic.handle_line, hg, hs] at h
  | some buffered =>
    cases hm : logic.config.mode <;>
      by_cases hc : logic.config.condition_pattern line = true <;>
        simp [Logic.handle_line, hg, hm, hc] at h
    · rw [Bool.not_eq_true] at hc
      obtain ⟨h1, h2, h3⟩ := h
      refine ⟨Or.inr rfl, h1.symm, h3.symm, ⟨buffered, rfl, h2.symm⟩, ?_, ?_, ?_⟩
      · simp [Logic.handle_line, hg, hm, hc]
      · intro _
        exact hc
      · intro hcontra
        exact absurd hcontra (by decide)
    · obtain ⟨h1, h2, h3⟩ := h
      refine ⟨Or.inl rfl, h1.symm, h3.symm, ⟨buffered, rfl, h2.symm⟩, ?_, ?_, ?_⟩
      · simp [Logic.handle_line, hg, hm, hc]
      · intro hcontra
        exact absurd hcontra (by decide)
      · intro _
        exact hc

/-- Witness for the amended C4 theorem, at the halt-before fixture. -/
theorem c4_two_emission_witness :
    (haltBeforeLogic1.handle_line "test.log" "START msg 1" ()).2
        = some ("test.log",
            Emit.two ("part 0.1", ()) ("START msg 1", ())) ∧
    ((haltBeforeLogic1.config.mode = Mode.HaltBefore ∨
       haltBeforeLogic1.config.mode = Mode.ContinueThrough) ∧
     "test.log" = "test.log" ∧
     ("START msg 1", ()) = ("START msg 1", ()) ∧
     (∃ agg, alistGet "test.log" haltBeforeLogic1.buffers = some agg ∧
        ("part 0.1", ()) = agg.merge) ∧
     (haltBeforeLogic1.handle_line "test.log" "START msg 1" ()).1.buffers
       = alistRemove "test.log" haltBeforeLogic1.buffers ∧
     (haltBeforeLogic1.config.mode = Mode.ContinueThrough →
       haltBeforeLogic1.config.condition_pattern "START msg 1" = false) ∧
     (haltBeforeLogic1.config.mode = Mode.HaltBefore →
       haltBeforeLogic1.config.condition_pattern "START msg 1" = true)) :=
  ⟨by decide,
   c4_two_emission_characterization haltBeforeLogic1 "test.log" "START msg 1"
     () "test.log" ("part 0.1", ()) ("START msg 1", ()) (by decide)⟩

/-- Claim C6: a file whose content starts with the gzip header bytes
`1f 8b`, opened with a nonzero stored position, gets the null (empty)
reader, keeps the stored position, and every subsequent `read_line` on the
(findable) watcher returns `Ok(None)`, leaving the state untouched and
emitting no lines. -/
theorem c6_gzip_resumption_refusal (content : List Nat) (pos : Nat)
    (too_old : Bool) (max_line_bytes : Nat) (decoded : List Nat)
    (hgz : is_gzipped content = true) (hpos : pos ≠ 0) :
    (FileWatcher.new content pos too_old max_line_bytes decoded).reader = []
    ∧ (FileWatcher.new content pos too_old max_line_bytes decoded).file_position
        = pos
    ∧ (FileWatcher.new content pos too_old max_line_bytes decoded).read_line
        = (FileWatcher.new content pos too_old max_line_bytes decoded, none)
    ∧ ∀ n, iterateReadLine n
          (FileWatcher.new content pos too_old max_line_bytes decoded)
        = (FileWatcher.new content pos too_old max_line_bytes decoded, []) := by
  have hw : FileWatcher.new content pos too_old max_line_bytes decoded
      = nullReaderWatcher pos max_line_bytes := by
    unfold FileWatcher.new
    rw [hgz]
    simp [hpos, nullReaderWatcher]
  have hone : (nullReaderWatcher pos max_line_bytes).read_line
      = (nullReaderWatcher pos max_line_bytes, none) := rfl
  refine ⟨by rw [hw]; rfl, by rw [hw]; rfl, by rw [hw, hone], ?_⟩
  intro n
  rw [hw]
  induction n with
  | zero => rfl
  | succ n ih => simp [iterateReadLine, hone, ih]

/-!
Claim theorems for `Metric::add` (C10) and the absolute-counter delta (C1).
-/

/-- Claim C1, evaluation at the failing input: pushing the absolute counter
observations 0, 1, 3 for one key into a fresh MetricBuffer yields a batch
whose only incremental delta is `1 - 0`: the third push computes the delta
`3 - 1` but then calls `existing.add(&item)` with the *absolute* incoming
item, which `Metric::add` ignores, so the delta is dropped instead of
accumulated and the batch total differs from `vₙ - v₀ = 3 - 0`. -/
theorem c1_counter_delta_dropped_at_failing_input :
    (MetricBuffer.pushAll (MetricBuffer.new 6)
        [cAbsCounter 0, cAbsCounter 1, cAbsCounter 3]).finish
      = [{ name := "c", nameSpace := none, timestamp := none, tags := none,
           kind := MetricKind.Incremental,
           value := MetricValue.Counter ((1 : ℚ) - 0) }] ∧
    (1 : ℚ) - 0 ≠ (3 : ℚ) - 0 := by
  constructor
  · rfl
  · norm_num

/-- Fields other than `value` are never touched by `Metric::update_value`. -/
theorem update_value_frame (self other : Metric) :
    (self.update_value other).name = self.name ∧
    (self.update_value other).nameSpace = self.nameSpace ∧
    (self.update_value other).timestamp = self.timestamp ∧
    (self.update_value other).tags = self.tags ∧
    (self.update_value other).kind = self.kind := by
  unfold Metric.update_value
  cases hv : self.value <;> cases hv2 : other.value <;>
    simp <;> split <;> simp

/-- Mismatched value variants make `Metric::update_value` the identity. -/
theorem update_value_eq_of_disc_ne (self other : Metric)
    (h : self.value.disc ≠ other.value.disc) :
    self.update_value other = self := by
  unfold Metric.update_value
  cases hv : self.value <;> cases hv2 : other.value <;>
    first
      | rfl
      | (exact absurd (by rw [hv, hv2]; rfl) h)

example : True := trivial

/-- Distributions with different statistic kinds are not merged by
`Metric::update_value`. -/
theorem update_value_eq_of_statistic_ne (self other : Metric)
    (v : List ℚ) (r : List Nat) (st : StatisticKind)
    (v2 : List ℚ) (r2 : List Nat) (st2 : StatisticKind)
    (hv : self.value = MetricValue.Distribution v r st)
    (hv2 : other.value = MetricValue.Distribution v2 r2 st2)
    (hst : st ≠ st2) :
    self.update_value other = self := by
  unfold Metric.update_value
  rw [hv, hv2]
  simp [hst]

/-- Aggregated histograms with different buckets are not merged by
`Metric::update_value`. -/
theorem update_value_eq_of_buckets_ne (self other : Metric)
    (bu : List ℚ) (c : List Nat) (cn : Nat) (s : ℚ)
    (bu2 : List ℚ) (c2 : List Nat) (cn2 : Nat) (s2 : ℚ)
    (hv : self.value = MetricValue.AggregatedHistogram bu c cn s)
    (hv2 : other.value = MetricValue.AggregatedHistogram bu2 c2 cn2 s2)
    (hb : bu ≠ bu2) :
    self.update_value other = self := by
  unfold Metric.update_value
  rw [hv, hv2]
  simp [hb]

/-- Claim C10: `Metric::add` leaves the receiver completely unchanged when
the other metric is absolute, when the value variants differ, when two
distributions carry different statistic kinds, or when two aggregated
histograms carry different buckets; and whenever `add` does change the
receiver, the other metric was incremental with the matching variant
(matching statistic for distributions, matching buckets for aggregated
histograms) and only the `value` field was updated. -/
theorem c10_add_frame_and_update_conditions (self other : Metric) :
    (other.kind = MetricKind.Absolute → self.add other = self) ∧
    (self.value.disc ≠ other.value.disc → self.add other = self) ∧
    (∀ v r st v2 r2 st2, self.value = MetricValue.Distribution v r st →
       other.value = MetricValue.Distribution v2 r2 st2 → st ≠ st2 →
       self.add other = self) ∧
    (∀ bu c cn s bu2 c2 cn2 s2,
       self.value = MetricValue.AggregatedHistogram bu c cn s →
       other.value = MetricValue.AggregatedHistogram bu2 c2 cn2 s2 →
       bu ≠ bu2 → self.add other = self) ∧
    (self.add other ≠ self →
       (other.kind = MetricKind.Incremental ∧
        self.value.disc = other.value.disc ∧
        (∀ v r st v2 r2 st2, self.value = MetricValue.Distribution v r st →
           other.value = MetricValue.Distribution v2 r2 st2 → st = st2) ∧
        (∀ bu c cn s bu2 c2 cn2 s2,
           self.value = MetricValue.AggregatedHistogram bu c cn s →
           other.value = MetricValue.AggregatedHistogram bu2 c2 cn2 s2 →
           bu = bu2) ∧
        (self.add other).name = self.name ∧
        (self.add other).nameSpace = self.nameSpace ∧
        (self.add other).timestamp = self.timestamp ∧
        (self.add other).tags = self.tags ∧
        (self.add other).kind = self.kind)) := by
  have habs : other.kind = MetricKind.Absolute → self.add other = self := by
    intro hk
    unfold Metric.add
    simp [hk]
  have hinc : other.kind = MetricKind.Incremental →
      self.add other = self.update_value other := by
    intro hk
    unfold Metric.add
    simp [hk]
  refine ⟨habs, ?_, ?_, ?_, ?_⟩
  · intro hd
    cases hk : other.kind with
    | Absolute => exact habs hk
    | Incremental => rw [hinc hk, update_value_eq_of_disc_ne self other hd]
  · intro v r st v2 r2 st2 hv hv2 hst
    cases hk : other.kind with
    | Absolute => exact habs hk
    | Incremental =>
      rw [hinc hk,
        update_value_eq_of_statistic_ne self other v r st v2 r2 st2 hv hv2 hst]
  · intro bu c cn s bu2 c2 cn2 s2 hv hv2 hb
    cases hk : other.kind with
    | Absolute => exact habs hk
    | Incremental =>
      rw [hinc hk,
        update_value_eq_of_buckets_ne self other bu c cn s bu2 c2 cn2 s2 hv hv2 hb]
  · intro hne
    have hk : other.kind = MetricKind.Incremental := by
      cases hk : other.kind with
      | Absolute => exact absurd (habs hk) hne
      | Incremental => rfl
    have hd : self.value.disc = other.value.disc := by
      by_contra hd
      exact hne (by rw [hinc hk, update_value_eq_of_disc_ne self other hd])
    have hfr := update_value_frame self other
    rw [hinc hk]
    refine ⟨hk, hd, ?_, ?_, hfr.1, hfr.2.1, hfr.2.2.1, hfr.2.2.2.1, hfr.2.2.2.2⟩
    · intro v r st v2 r2 st2 hv hv2
      by_contra hst
      exact hne (by rw [hinc hk,
        update_value_eq_of_statistic_ne self other v r st v2 r2 st2 hv hv2 hst])
    · intro bu c cn s bu2 c2 cn2 s2 hv hv2
      by_contra hb
      exact hne (by rw [hinc hk,
        update_value_eq_of_buckets_ne self other bu c cn s bu2 c2 cn2 s2 hv hv2 hb])

/-- Witness for the C10 frame theorem: an absolute counter added to an
incremental counter leaves it unchanged (first frame condition discharged at
a concrete input). -/
theorem c10_add_frame_witness :
    (cAbsCounter 3).kind = MetricKind.Absolute ∧
    (gIncGauge 1).add (cAbsCounter 3) = gIncGauge 1 :=
  ⟨rfl, (c10_add_frame_and_update_conditions (gIncGauge 1) (cAbsCounter 3)).1 rfl⟩

/-- Witness for C6 at a concrete gzip header and stored position 100. -/
theorem c6_gzip_refusal_witness :
    is_gzipped [31, 139, 8, 0] = true ∧ (100 : Nat) ≠ 0 ∧
    (FileWatcher.new [31, 139, 8, 0] 100 false 1000 []).reader = [] ∧
    (FileWatcher.new [31, 139, 8, 0] 100 false 1000 []).file_position = 100 ∧
    iterateReadLine 3 (FileWatcher.new [31, 139, 8, 0] 100 false 1000 [])
      = (FileWatcher.new [31, 139, 8, 0] 100 false 1000 [], []) :=
  ⟨by decide, by decide,
   (c6_gzip_resumption_refusal [31, 139, 8, 0] 100 false 1000 []
     (by decide) (by decide)).1,
   (c6_gzip_resumption_refusal [31, 139, 8, 0] 100 false 1000 []
     (by decide) (by decide)).2.1,
   (c6_gzip_resumption_refusal [31, 139, 8, 0] 100 false 1000 []
     (by decide) (by decide)).2.2.2 3⟩

theorem rateSumAt_nil (v : ℚ) : rateSumAt v [] = 0 := rfl

theorem rateSumAt_cons (v : ℚ) (w : ℚ) (c : Nat) (t : List (ℚ × Nat)) :
    rateSumAt v ((w, c) :: t)
      = if w = v then c + rateSumAt v t else rateSumAt v t := by
  unfold rateSumAt
  rw [List.filter_cons]
  by_cases h : w = v <;> simp [h]

theorem rateSumAt_eq_zero (v : ℚ) (t : List (ℚ × Nat))
    (h : ∀ x ∈ t, x.1 ≠ v) : rateSumAt v t = 0 := by
  induction t with
  | nil => rfl
  | cons hd tl ih =>
    obtain ⟨w, c⟩ := hd
    rw [rateSumAt_cons]
    have hw : w ≠ v := h (w, c) (by simp)
    simp [hw]
    exact ih fun x hx => h x (by simp [hx])

theorem rateSumAt_perm (v : ℚ) {l1 l2 : List (ℚ × Nat)} (h : l1.Perm l2) :
    rateSumAt v l1 = rateSumAt v l2 :=
  ((h.filter _).map Prod.snd).sum_eq

/-- Behaviour of the accumulation loop on a value-sorted pair list: the
output is strictly increasing in the value component, starts no lower than
`prev`, covers exactly the values `prev` and those of the input, and each
output rate is the total input rate of its value (plus the seed accumulator
on the `prev` value). -/
theorem compressLoop_spec (l : List (ℚ × Nat)) (prev : ℚ) (acc : Nat)
    (hs : l.Pairwise distLe) (hge : ∀ x ∈ l, prev ≤ x.1) :
    compressLoop prev acc l ≠ [] ∧
    (∀ y ∈ compressLoop prev acc l, prev ≤ y.1) ∧
    (compressLoop prev acc l).Pairwise (fun a b => a.1 < b.1) ∧
    (∀ v, v ∈ (compressLoop prev acc l).map Prod.fst ↔
      v = prev ∨ v ∈ l.map Prod.fst) ∧
    (∀ p ∈ compressLoop prev acc l,
      p.2 = (if p.1 = prev then acc else 0) + rateSumAt p.1 l) := by
  induction l generalizing prev acc with
  | nil =>
    refine ⟨by simp [compressLoop], ?_, ?_, ?_, ?_⟩
    · intro y hy
      simp [compressLoop] at hy
      simp [hy]
    · simp [compressLoop]
    · intro v
      simp [compressLoop]
    · intro p hp
      simp [compressLoop] at hp
      simp [hp, rateSumAt_nil]
  | cons hd t ih =>
    obtain ⟨v, c⟩ := hd
    rw [List.pairwise_cons] at hs
    obtain ⟨hvt, ht⟩ := hs
    have hpv : prev ≤ v := hge (v, c) (by simp)
    have hvt2 : ∀ x ∈ t, v ≤ x.1 := fun x hx => hvt x hx
    by_cases hvp : v = prev
    · subst hvp
      rw [show compressLoop v acc ((v, c) :: t) = compressLoop v (acc + c) t
        from by simp [compressLoop]]
      obtain ⟨ih1, ih2, ih3, ih4, ih5⟩ := ih v (acc + c) ht hvt2
      refine ⟨ih1, ih2, ih3, ?_, ?_⟩
      · intro w
        rw [ih4]
        simp only [List.map_cons, List.mem_cons]
        constructor
        · rintro (h | h)
          · exact Or.inl h
          · exact Or.inr (Or.inr h)
        · rintro (h | h | h)
          · exact Or.inl h
          · exact Or.inl h
          · exact Or.inr h
      · intro p hp
        have := ih5 p hp
        rw [this, rateSumAt_cons]
        by_cases hpe : p.1 = v
        · simp [hpe, Nat.add_assoc]
        · have : ¬ v = p.1 := fun h => hpe h.symm
          simp [hpe, this]
    · have hlt : prev < v := lt_of_le_of_ne hpv (Ne.symm hvp)
      rw [show compressLoop prev acc ((v, c) :: t)
          = (prev, acc) :: compressLoop v c t from by simp [compressLoop, hvp]]
      obtain ⟨ih1, ih2, ih3, ih4, ih5⟩ := ih v c ht hvt2
      have hgt : ∀ y ∈ compressLoop v c t, prev < y.1 :=
        fun y hy => lt_of_lt_of_le hlt (ih2 y hy)
      refine ⟨by simp, ?_, ?_, ?_, ?_⟩
      · intro y hy
        rcases List.mem_cons.mp hy with h | h
        · simp [h]
        · exact le_of_lt (hgt y h)
      · rw [List.pairwise_cons]
        exact ⟨fun y hy => hgt y hy, ih3⟩
      · intro w
        simp only [List.map_cons, List.mem_cons]
        rw [ih4]
      · intro p hp
        rcases List.mem_cons.mp hp with h | h
        · subst h
          simp only
          rw [rateSumAt_cons]
          have hvprev : ¬ v = prev := hvp
          have hzero : rateSumAt prev t = 0 :=
            rateSumAt_eq_zero prev t fun x hx =>
              ne_of_gt (lt_of_lt_of_le hlt (hvt2 x hx))
          simp [hvprev, hzero]
        · have hple : v ≤ p.1 := ih2 p h
          have hpne : ¬ p.1 = prev := ne_of_gt (lt_of_lt_of_le hlt hple)
          have := ih5 p h
          rw [rateSumAt_cons]
          by_cases hpe : p.1 = v
          · rw [this]
            simp [hpe, hpne, hvp]
          · have hvpe : ¬ v = p.1 := fun h2 => hpe h2.symm
            rw [this]
            simp [hpe, hpne, hvpe, hvp]

theorem zip_map_fst_snd_self (l : List (ℚ × Nat)) :
    (l.map Prod.fst).zip (l.map Prod.snd) = l := by
  induction l with
  | nil => rfl
  | cons hd t ih => simp [ih]

/-- Extensional behaviour of the pair-level compression: strictly increasing
values, value set preserved, and each output rate is the total input rate of
its value; the output is empty exactly for empty input. -/
theorem compressPairs_spec (pairs : List (ℚ × Nat)) :
    (compressPairs pairs).Pairwise (fun a b => a.1 < b.1) ∧
    (∀ v, v ∈ (compressPairs pairs).map Prod.fst ↔
      v ∈ pairs.map Prod.fst) ∧
    (∀ p ∈ compressPairs pairs, p.2 = rateSumAt p.1 pairs) ∧
    (compressPairs pairs = [] ↔ pairs = []) := by
  have hperm : (List.insertionSort distLe pairs).Perm pairs :=
    List.perm_insertionSort distLe pairs
  have hsorted : (List.insertionSort distLe pairs).Pairwise distLe :=
    List.sorted_insertionSort distLe pairs
  cases hs : List.insertionSort distLe pairs with
  | nil =>
    have hpairs : pairs = [] := by
      have := hperm
      rw [hs] at this
      exact this.symm.eq_nil
    subst hpairs
    refine ⟨by simp [compressPairs], by simp [compressPairs], ?_, by simp [compressPairs]⟩
    intro p hp
    simp [compressPairs] at hp
  | cons hd rest =>
    obtain ⟨v0, c0⟩ := hd
    rw [hs] at hperm hsorted
    have hout : compressPairs pairs = compressLoop v0 0 ((v0, c0) :: rest) := by
      unfold compressPairs
      rw [hs]
    have hge : ∀ x ∈ (v0, c0) :: rest, v0 ≤ x.1 := by
      intro x hx
      rcases List.mem_cons.mp hx with h | h
      · simp [h]
      · exact (List.pairwise_cons.mp hsorted).1 x h
    obtain ⟨h1, h2, h3, h4, h5⟩ :=
      compressLoop_spec ((v0, c0) :: rest) v0 0 hsorted hge
    rw [hout]
    refine ⟨h3, ?_, ?_, ?_⟩
    · intro v
      rw [h4 v]
      have hmem : (v ∈ List.map Prod.fst ((v0, c0) :: rest)) ↔
          v ∈ pairs.map Prod.fst := (hperm.map Prod.fst).mem_iff
      rw [← hmem]
      simp only [List.map_cons, List.mem_cons]
      constructor
      · rintro (h | h)
        · exact Or.inl h
        · exact h
      · exact fun h => Or.inr h
    · intro p hp
      have := h5 p hp
      rw [this, rateSumAt_perm p.1 hperm]
      by_cases hpe : p.1 = v0 <;> simp [hpe]
    · constructor
      · intro h
        exact absurd h h1
      · intro h
        subst h
        simp at hs

/-- On a list whose values are all strictly above `prev` and strictly
increasing, the accumulation loop is a no-op apart from emitting the seed
pair. -/
theorem compressLoop_fixpoint (t : List (ℚ × Nat)) (prev : ℚ) (acc : Nat)
    (h : ∀ x ∈ t, prev < x.1)
    (hp : t.Pairwise (fun a b => a.1 < b.1)) :
    compressLoop prev acc t = (prev, acc) :: t := by
  induction t generalizing prev acc with
  | nil => rfl
  | cons hd t2 ih =>
    obtain ⟨v, c⟩ := hd
    rw [List.pairwise_cons] at hp
    have hvp : ¬ v = prev := fun h2 => absurd h2 (ne_of_gt (h (v, c) (by simp)))
    rw [show compressLoop prev acc ((v, c) :: t2)
        = (prev, acc) :: compressLoop v c t2 from by simp [compressLoop, hvp]]
    rw [ih v c (fun x hx => hp.1 x hx) hp.2]

/-- Compressing twice is the same as compressing once, at the pair level. -/
theorem compressPairs_idem (pairs : List (ℚ × Nat)) :
    compressPairs (compressPairs pairs) = compressPairs pairs := by
  obtain ⟨hpw, -, -, -⟩ := compressPairs_spec pairs
  cases ho : compressPairs pairs with
  | nil => rfl
  | cons hd rest =>
    obtain ⟨v0, a0⟩ := hd
    rw [ho] at hpw
    have hsorted : ((v0, a0) :: rest).Pairwise distLe :=
      hpw.imp fun h => le_of_lt h
    have hfix : List.insertionSort distLe ((v0, a0) :: rest)
        = (v0, a0) :: rest := List.Sorted.insertionSort_eq hsorted
    unfold compressPairs
    rw [hfix]
    show compressLoop v0 0 ((v0, a0) :: rest) = (v0, a0) :: rest
    rw [show compressLoop v0 0 ((v0, a0) :: rest)
        = compressLoop v0 (0 + a0) rest from by simp [compressLoop]]
    rw [List.pairwise_cons] at hpw
    rw [compressLoop_fixpoint rest v0 (0 + a0) hpw.1 hpw.2]
    rw [Nat.zero_add]

/-- Claim C8: distribution compression is idempotent:
`compress(compress(x)) == compress(x)` for every pair of parallel vectors. -/
theorem c8_compress_distribution_idempotent (values : List ℚ)
    (sample_rates : List Nat) :
    compress_distribution (compress_distribution values sample_rates).1
        (compress_distribution values sample_rates).2
      = compress_distribution values sample_rates := by
  by_cases hg : values = [] ∨ sample_rates = []
  · rw [show compress_distribution values sample_rates = ([], []) from by
      unfold compress_distribution
      simp [hg]]
    rfl
  · have hidem := compressPairs_idem (values.zip sample_rates)
    cases ho : compressPairs (values.zip sample_rates) with
    | nil =>
      rw [show compress_distribution values sample_rates = ([], []) from by
        unfold compress_distribution
        simp [hg, ho]]
      rfl
    | cons hd rest =>
      rw [ho] at hidem
      have h1 : compress_distribution values sample_rates
          = ((hd :: rest).map Prod.fst, (hd :: rest).map Prod.snd) := by
        unfold compress_distribution
        simp [hg, ho]
      rw [h1]
      unfold compress_distribution
      rw [if_neg (by simp : ¬((hd :: rest).map Prod.fst = [] ∨
        (hd :: rest).map Prod.snd = []))]
      rw [zip_map_fst_snd_self, hidem]

/-- Claim C7: `finish()` maps every metric of the batch through distribution
compression (non-distributions unchanged, each distribution replaced by its
compressed pairs); the compressed pairs are the input pairs sorted by value
with consecutive equal values collapsed into one pair whose rate is the sum
(strictly increasing values, value set preserved, per-value rate totals
preserved); empty inputs yield `([], [])`; and on the concrete distribution
`values = [2,2,3,1,2,2,3]`, `sample_rates = [12,12,13,11,12,12,13]` the
result is `values = [1,2,3]`, `sample_rates = [11,48,26]`. -/
theorem c7_finish_compresses_distributions :
    (∀ (b : MetricBuffer) (m : Metric), m ∈ b.finish →
      ∃ e ∈ b.metrics,
        ((∀ v r st, e.value ≠ MetricValue.Distribution v r st) → m = e) ∧
        (∀ v r st, e.value = MetricValue.Distribution v r st →
          m = { e with value := (MetricValue.Distribution
                  (compress_distribution v r).1
                  (compress_distribution v r).2 st) })) ∧
    (∀ (values : List ℚ) (sample_rates : List Nat),
      ((compress_distribution values sample_rates).1.zip
          (compress_distribution values sample_rates).2).Pairwise
        (fun a b => a.1 < b.1) ∧
      (∀ v, v ∈ ((compress_distribution values sample_rates).1.zip
            (compress_distribution values sample_rates).2).map Prod.fst ↔
          v ∈ (values.zip sample_rates).map Prod.fst) ∧
      (∀ p ∈ (compress_distribution values sample_rates).1.zip
            (compress_distribution values sample_rates).2,
        p.2 = rateSumAt p.1 (values.zip sample_rates))) ∧
    compress_distribution [] [] = ([], []) ∧
    compress_distribution [2, 2, 3, 1, 2, 2, 3] [12, 12, 13, 11, 12, 12, 13]
      = ([1, 2, 3], [11, 48, 26]) := by
  refine ⟨?_, ?_, rfl, by decide⟩
  · intro b m hm
    unfold MetricBuffer.finish at hm
    obtain ⟨e, he, hme⟩ := List.mem_map.mp hm
    refine ⟨e, he, ?_, ?_⟩
    · intro hnd
      rw [← hme]
      cases hv : e.value with
      | Distribution v r st => exact absurd hv (hnd v r st)
      | Counter v => simp [hv]
      | Gauge v => simp [hv]
      | Set v => simp [hv]
      | AggregatedHistogram a b c d => simp [hv]
      | AggregatedSummary a b c d => simp [hv]
    · intro v r st hv
      rw [← hme]
      simp [hv]
  · intro values sample_rates
    by_cases hg : values = [] ∨ sample_rates = []
    · have hz : compress_distribution values sample_rates = ([], []) := by
        unfold compress_distribution
        simp [hg]
      have hzz : values.zip sample_rates = [] := by
        rcases hg with h | h <;> simp [h]
      rw [hz, hzz]
      simp
    · have h1 : compress_distribution values sample_rates
          = ((compressPairs (values.zip sample_rates)).map Prod.fst,
             (compressPairs (values.zip sample_rates)).map Prod.snd) := by
        unfold compress_distribution
        simp [hg]
      obtain ⟨hs1, hs2, hs3, -⟩ := compressPairs_spec (values.zip sample_rates)
      rw [h1]
      simp only [zip_map_fst_snd_self]
      exact ⟨hs1, hs2, hs3⟩

/-- Witness for the C7 theorem: a buffer holding one concrete distribution,
whose finished batch contains exactly its compressed form. -/
theorem c7_finish_compression_witness :
    { name := "d", nameSpace := none, timestamp := none, tags := none,
      kind := MetricKind.Incremental,
      value := (MetricValue.Distribution [1, 2, 3] [11, 48, 26]
        StatisticKind.Histogram) : Metric }
      ∈ (MetricBuffer.pushAll (MetricBuffer.new 6)
          [dIncDistribution [2, 2, 3, 1, 2, 2, 3]
            [12, 12, 13, 11, 12, 12, 13]]).finish ∧
    ∃ e ∈ (MetricBuffer.pushAll (MetricBuffer.new 6)
        [dIncDistribution [2, 2, 3, 1, 2, 2, 3]
          [12, 12, 13, 11, 12, 12, 13]]).metrics,
      ((∀ v r st, e.value ≠ MetricValue.Distribution v r st) →
        ({ name := "d", nameSpace := none, timestamp := none, tags := none,
           kind := MetricKind.Incremental,
           value := (MetricValue.Distribution [1, 2, 3] [11, 48, 26]
             StatisticKind.Histogram) : Metric }) = e) ∧
      (∀ v r st, e.value = MetricValue.Distribution v r st →
        ({ name := "d", nameSpace := none, timestamp := none, tags := none,
           kind := MetricKind.Incremental,
           value := (MetricValue.Distribution [1, 2, 3] [11, 48, 26]
             StatisticKind.Histogram) : Metric })
          = { e with value := (MetricValue.Distribution
              (compress_distribution v r).1
              (compress_distribution v r).2 st) }) :=
  ⟨by decide,
   c7_finish_compresses_distributions.1
     (MetricBuffer.pushAll (MetricBuffer.new 6)
       [dIncDistribution [2, 2, 3, 1, 2, 2, 3] [12, 12, 13, 11, 12, 12, 13]])
     { name := "d", nameSpace := none, timestamp := none, tags := none,
       kind := MetricKind.Incremental,
       value := (MetricValue.Distribution [1, 2, 3] [11, 48, 26]
         StatisticKind.Histogram) }
     (by decide)⟩


theorem hsGet_eq_none_iff (k : EntryKey) (l : List Metric) :
    hsGet k l = none ↔ ∀ m ∈ l, m.entryKey ≠ k := by
  induction l with
  | nil => simp [hsGet]
  | cons hd t ih =>
    by_cases h : hd.entryKey = k <;> simp [hsGet, h, ih]

theorem hsGet_eq_some (k : EntryKey) (l : List Metric) (e : Metric)
    (h : hsGet k l = some e) : e ∈ l ∧ e.entryKey = k := by
  induction l with
  | nil => simp [hsGet] at h
  | cons hd t ih =>
    by_cases hh : hd.entryKey = k
    · rw [hsGet, if_pos hh] at h
      obtain rfl : hd = e := by injection h
      exact ⟨by simp, hh⟩
    · rw [hsGet, if_neg hh] at h
      obtain ⟨h1, h2⟩ := ih h
      exact ⟨by simp [h1], h2⟩

theorem hsRemove_sublist (k : EntryKey) (l : List Metric) :
    (hsRemove k l).Sublist l := by
  induction l with
  | nil => simp [hsRemove]
  | cons hd t ih =>
    by_cases h : hd.entryKey = k
    · rw [hsRemove, if_pos h]
      exact List.sublist_cons_self hd t
    · rw [hsRemove, if_neg h]
      exact ih.cons₂ hd

theorem hsRemove_mem (k : EntryKey) (l : List Metric) (m : Metric)
    (h : m ∈ hsRemove k l) : m ∈ l :=
  (hsRemove_sublist k l).mem h

theorem hsRemove_pairwise (k : EntryKey) (l : List Metric)
    (h : l.Pairwise keyNe) : (hsRemove k l).Pairwise keyNe :=
  h.sublist (hsRemove_sublist k l)

theorem hsRemove_key_ne (k : EntryKey) (l : List Metric)
    (hpw : l.Pairwise keyNe) :
    ∀ m ∈ hsRemove k l, m.entryKey ≠ k := by
  induction l with
  | nil => simp [hsRemove]
  | cons hd t ih =>
    rw [List.pairwise_cons] at hpw
    by_cases h : hd.entryKey = k
    · rw [hsRemove, if_pos h]
      intro m hm
      have hne := hpw.1 m hm
      simp only [keyNe] at hne
      intro h2
      exact hne (by rw [h, h2])
    · rw [hsRemove, if_neg h]
      intro m hm
      rcases List.mem_cons.mp hm with h2 | h2
      · rw [h2]
        exact h
      · exact ih hpw.2 m h2

theorem hsInsert_mem (x : Metric) (l : List Metric) (m : Metric)
    (h : m ∈ hsInsert x l) : m ∈ l ∨ m = x := by
  unfold hsInsert at h
  cases hg : hsGet x.entryKey l with
  | some e =>
    rw [hg] at h
    exact Or.inl h
  | none =>
    rw [hg] at h
    rcases List.mem_append.mp h with h2 | h2
    · exact Or.inl h2
    · exact Or.inr (by simpa using h2)

theorem hsInsert_pairwise (x : Metric) (l : List Metric)
    (hpw : l.Pairwise keyNe) : (hsInsert x l).Pairwise keyNe := by
  unfold hsInsert
  cases hg : hsGet x.entryKey l with
  | some e => exact hpw
  | none =>
    rw [List.pairwise_append]
    refine ⟨hpw, by simp [keyNe], ?_⟩
    intro a ha b hb
    have hbx : b = x := by simpa using hb
    rw [keyNe, hbx]
    exact (hsGet_eq_none_iff x.entryKey l).mp hg a ha

theorem hsReplace_mem (x : Metric) (l : List Metric) (m : Metric)
    (h : m ∈ hsReplace x l) : m ∈ l ∨ m = x := by
  unfold hsReplace at h
  rcases List.mem_append.mp h with h2 | h2
  · exact Or.inl (hsRemove_mem _ l m h2)
  · exact Or.inr (by simpa using h2)

theorem hsReplace_pairwise (x : Metric) (l : List Metric)
    (hpw : l.Pairwise keyNe) : (hsReplace x l).Pairwise keyNe := by
  unfold hsReplace
  rw [List.pairwise_append]
  refine ⟨hsRemove_pairwise _ l hpw, by simp [keyNe], ?_⟩
  intro a ha b hb
  have hbx : b = x := by simpa using hb
  rw [keyNe, hbx]
  exact hsRemove_key_ne x.entryKey l hpw a ha

/-- `Metric::add` never changes the `MetricEntry` key of the receiver. -/
theorem entryKey_add (a x : Metric) : (a.add x).entryKey = a.entryKey := by
  unfold Metric.add
  by_cases hk : x.kind = MetricKind.Absolute
  · simp [hk]
  · simp only [hk, if_false]
    unfold Metric.update_value
    cases hv : a.value <;> cases hv2 : x.value <;>
      simp [apply_ite Metric.entryKey, Metric.entryKey, MetricValue.disc, hv] <;>
      (split_ifs <;> simp [MetricValue.disc, hv])

/-- `Metric::add` never changes the kind of the receiver. -/
theorem kind_add (a x : Metric) : (a.add x).kind = a.kind := by
  have h := congrArg EntryKey.kind (entryKey_add a x)
  simpa [Metric.entryKey] using h

/-- `Metric::add` never changes the value variant of the receiver. -/
theorem disc_add (a x : Metric) : (a.add x).value.disc = a.value.disc := by
  have h := congrArg EntryKey.disc (entryKey_add a x)
  simpa [Metric.entryKey] using h


theorem goodMetric_mono (items : List Metric) (i m : Metric)
    (h : goodMetric items m) : goodMetric (items ++ [i]) m := by
  refine ⟨h.1, h.2.1, fun d1 d2 => ?_⟩
  obtain ⟨x, hx, hk⟩ := h.2.2 d1 d2
  exact ⟨x, by simp [hx], hk⟩

theorem goodMetric_add (items : List Metric) (m x : Metric)
    (h : goodMetric items m) : goodMetric items (m.add x) := by
  refine ⟨?_, ?_, ?_⟩
  · rw [disc_add, kind_add]
    exact h.1
  · rw [disc_add, kind_add]
    exact h.2.1
  · rw [disc_add, entryKey_add]
    exact h.2.2

theorem goodMetric_of_other (items : List Metric) (item : Metric)
    (hmem : item ∈ items) (hd1 : item.value.disc ≠ ValueDisc.counter)
    (hd2 : item.value.disc ≠ ValueDisc.gauge) : goodMetric items item :=
  ⟨fun d => absurd d hd1, fun d => absurd d hd2, fun _ _ => ⟨item, hmem, rfl⟩⟩

theorem good_insert_found (items : List Metric) (metrics : List Metric)
    (item existing : Metric) (k : EntryKey)
    (hget : hsGet k metrics = some existing)
    (hgood : ∀ m ∈ metrics, goodMetric items m)
    (hpw : metrics.Pairwise keyNe) :
    (∀ m ∈ hsInsert (existing.add item) (hsRemove k metrics),
      goodMetric items m) ∧
    (hsInsert (existing.add item) (hsRemove k metrics)).Pairwise keyNe := by
  constructor
  · intro m hm
    rcases hsInsert_mem _ _ m hm with h | h
    · exact hgood m (hsRemove_mem _ _ m h)
    · rw [h]
      exact goodMetric_add items existing item
        (hgood existing (hsGet_eq_some _ _ _ hget).1)
  · exact hsInsert_pairwise _ _ (hsRemove_pairwise _ _ hpw)

theorem good_insert_new (items : List Metric) (metrics : List Metric)
    (x : Metric) (hx : goodMetric items x)
    (hgood : ∀ m ∈ metrics, goodMetric items m)
    (hpw : metrics.Pairwise keyNe) :
    (∀ m ∈ hsInsert x metrics, goodMetric items m) ∧
    (hsInsert x metrics).Pairwise keyNe := by
  constructor
  · intro m hm
    rcases hsInsert_mem _ _ m hm with h | h
    · exact hgood m h
    · rw [h]
      exact hx
  · exact hsInsert_pairwise _ _ hpw

/-- Invariant preservation through the wildcard arm of `push` (incremental
non-gauge metrics: merge into the outgoing entry or insert). -/
theorem inv_arm_other (items : List Metric) (b : MetricBuffer) (item : Metric)
    (hitem : goodMetric (items ++ [item]) item)
    (hgood2 : ∀ m ∈ b.metrics, goodMetric (items ++ [item]) m)
    (hpw : b.metrics.Pairwise keyNe)
    (hstate : ∀ m ∈ b.state,
      m.kind = MetricKind.Absolute ∧ m.value.disc = ValueDisc.counter) :
    buffInv (items ++ [item])
      (match hsTake item.entryKey b.metrics with
       | (some existing, rest) =>
         { b with metrics := hsInsert (existing.add item) rest }
       | (none, _) => { b with metrics := hsInsert item b.metrics }) := by
  unfold hsTake
  cases hget : hsGet item.entryKey b.metrics with
  | some existing =>
    obtain ⟨g, p⟩ :=
      good_insert_found (items ++ [item]) b.metrics item existing _ hget
        hgood2 hpw
    exact ⟨g, p, hstate⟩
  | none =>
    obtain ⟨g, p⟩ :=
      good_insert_new (items ++ [item]) b.metrics item hitem hgood2 hpw
    exact ⟨g, p, hstate⟩

/-- Invariant preservation through the `(Absolute, _)` arm of `push`
(replace the outgoing entry wholesale). -/
theorem inv_arm_absolute_replace (items : List Metric) (b : MetricBuffer)
    (item : Metric)
    (hitem : goodMetric (items ++ [item]) item)
    (hgood2 : ∀ m ∈ b.metrics, goodMetric (items ++ [item]) m)
    (hpw : b.metrics.Pairwise keyNe)
    (hstate : ∀ m ∈ b.state,
      m.kind = MetricKind.Absolute ∧ m.value.disc = ValueDisc.counter) :
    buffInv (items ++ [item]) { b with metrics := hsReplace item b.metrics } := by
  refine ⟨?_, hsReplace_pairwise _ _ hpw, hstate⟩
  intro m hm
  rcases hsReplace_mem _ _ m hm with h | h
  · exact hgood2 m h
  · rw [h]
    exact hitem

/-- Invariant preservation through the `(Incremental, Gauge)` arm of `push`:
merge into the outgoing absolute gauge, or initialize one from zero (the
permanent state cannot supply a gauge, as it holds only absolute
counters). -/
theorem inv_arm_gauge (items : List Metric) (b : MetricBuffer) (item : Metric)
    (v : ℚ) (hk : item.kind = MetricKind.Incremental)
    (hv : item.value = MetricValue.Gauge v)
    (hgood2 : ∀ m ∈ b.metrics, goodMetric (items ++ [item]) m)
    (hpw : b.metrics.Pairwise keyNe)
    (hstate : ∀ m ∈ b.state,
      m.kind = MetricKind.Absolute ∧ m.value.disc = ValueDisc.counter) :
    buffInv (items ++ [item])
      (match hsTake item.to_absolute.entryKey b.metrics with
       | (some existing, rest) =>
         { b with metrics := hsInsert (existing.add item) rest }
       | (none, _) =>
         { b with metrics := (hsInsert
             ((match hsGet item.to_absolute.entryKey b.state with
               | some dflt => dflt
               | none =>
                 { name := item.name, nameSpace := item.nameSpace,
                   timestamp := item.timestamp, tags := item.tags,
                   kind := MetricKind.Absolute,
                   value := MetricValue.Gauge 0 }).add item) b.metrics) }) := by
  unfold hsTake
  cases hget : hsGet item.to_absolute.entryKey b.metrics with
  | some existing =>
    obtain ⟨g, p⟩ :=
      good_insert_found (items ++ [item]) b.metrics item existing _ hget
        hgood2 hpw
    exact ⟨g, p, hstate⟩
  | none =>
    have hsg : hsGet item.to_absolute.entryKey b.state = none := by
      rw [hsGet_eq_none_iff]
      intro m hm heq
      have hd := congrArg EntryKey.disc heq
      have hm2 := (hstate m hm).2
      simp only [Metric.entryKey] at hd
      rw [hm2] at hd
      have : item.to_absolute.value.disc = ValueDisc.gauge := by
        simp [Metric.to_absolute, hv, MetricValue.disc]
      rw [this] at hd
      cases hd
    rw [hsg]
    have hx : goodMetric (items ++ [item])
        (({ name := item.name, nameSpace := item.nameSpace,
            timestamp := item.timestamp, tags := item.tags,
            kind := MetricKind.Absolute,
            value := MetricValue.Gauge 0 } : Metric).add item) := by
      refine ⟨fun d => ?_, fun _ => ?_, fun d1 d2 => ?_⟩
      · rw [disc_add] at d
        simp [MetricValue.disc] at d
      · rw [kind_add]
      · rw [disc_add] at d2
        simp [MetricValue.disc] at d2
    obtain ⟨g, p⟩ :=
      good_insert_new (items ++ [item]) b.metrics _ hx hgood2 hpw
    exact ⟨g, p, hstate⟩

/-- Invariant preservation through the delta branch of the
`(Absolute, Counter)` arm of `push`: the incremental delta is merged into or
inserted in the batch and the state snapshot replaced. -/
theorem inv_arm_absolute_counter_delta (items : List Metric)
    (b : MetricBuffer) (item : Metric) (v value0 : ℚ)
    (hk : item.kind = MetricKind.Absolute)
    (hv : item.value = MetricValue.Counter v)
    (hgood2 : ∀ m ∈ b.metrics, goodMetric (items ++ [item]) m)
    (hpw : b.metrics.Pairwise keyNe)
    (hstate : ∀ m ∈ b.state,
      m.kind = MetricKind.Absolute ∧ m.value.disc = ValueDisc.counter) :
    buffInv (items ++ [item])
      { b with
        metrics :=
          (match hsTake (Metric.entryKey
              { name := item.name, nameSpace := item.nameSpace,
                timestamp := item.timestamp, tags := item.tags,
                kind := MetricKind.Incremental,
                value := MetricValue.Counter (v - value0) }) b.metrics with
           | (some existing, rest) => hsInsert (existing.add item) rest
           | (none, _) => hsInsert
               { name := item.name, nameSpace := item.nameSpace,
                 timestamp := item.timestamp, tags := item.tags,
                 kind := MetricKind.Incremental,
                 value := MetricValue.Counter (v - value0) } b.metrics)
        state := hsReplace item b.state } := by
  have hrepstate : ∀ m ∈ hsReplace item b.state,
      m.kind = MetricKind.Absolute ∧ m.value.disc = ValueDisc.counter := by
    intro m hm
    rcases hsReplace_mem _ _ m hm with h | h
    · exact hstate m h
    · rw [h]
      exact ⟨hk, by rw [hv]; rfl⟩
  have hdelta : goodMetric (items ++ [item])
      ({ name := item.name, nameSpace := item.nameSpace,
         timestamp := item.timestamp, tags := item.tags,
         kind := MetricKind.Incremental,
         value := MetricValue.Counter (v - value0) } : Metric) := by
    refine ⟨fun _ => rfl, fun d => ?_, fun d1 _ => ?_⟩
    · simp [MetricValue.disc] at d
    · exact absurd rfl d1
  unfold hsTake
  cases hget2 : hsGet (Metric.entryKey
      { name := item.name, nameSpace := item.nameSpace,
        timestamp := item.timestamp, tags := item.tags,
        kind := MetricKind.Incremental,
        value := MetricValue.Counter (v - value0) }) b.metrics with
  | some existing =>
    obtain ⟨g, p⟩ :=
      good_insert_found (items ++ [item]) b.metrics item existing _ hget2
        hgood2 hpw
    exact ⟨g, p, hrepstate⟩
  | none =>
    obtain ⟨g, p⟩ :=
      good_insert_new (items ++ [item]) b.metrics _ hdelta hgood2 hpw
    exact ⟨g, p, hrepstate⟩

/-- Invariant preservation through the `(Absolute, Counter)` arm of `push`. -/
theorem inv_arm_absolute_counter (items : List Metric) (b : MetricBuffer)
    (item : Metric) (v : ℚ) (hk : item.kind = MetricKind.Absolute)
    (hv : item.value = MetricValue.Counter v)
    (hgood2 : ∀ m ∈ b.metrics, goodMetric (items ++ [item]) m)
    (hpw : b.metrics.Pairwise keyNe)
    (hstate : ∀ m ∈ b.state,
      m.kind = MetricKind.Absolute ∧ m.value.disc = ValueDisc.counter) :
    buffInv (items ++ [item])
      (match hsGet item.entryKey b.state with
       | some st =>
         match st.value with
         | MetricValue.Counter value0 =>
           { b with
             metrics :=
               (match hsTake (Metric.entryKey
                   { name := item.name, nameSpace := item.nameSpace,
                     timestamp := item.timestamp, tags := item.tags,
                     kind := MetricKind.Incremental,
                     value := MetricValue.Counter (v - value0) }) b.metrics with
                | (some existing, rest) => hsInsert (existing.add item) rest
                | (none, _) => hsInsert
                    { name := item.name, nameSpace := item.nameSpace,
                      timestamp := item.timestamp, tags := item.tags,
                      kind := MetricKind.Incremental,
                      value := MetricValue.Counter (v - value0) } b.metrics)
             state := hsReplace item b.state }
         | _ => { b with state := hsInsert item b.state }
       | none => { b with state := hsInsert item b.state }) := by
  have hinsstate : ∀ m ∈ hsInsert item b.state,
      m.kind = MetricKind.Absolute ∧ m.value.disc = ValueDisc.counter := by
    intro m hm
    rcases hsInsert_mem _ _ m hm with h | h
    · exact hstate m h
    · rw [h]
      exact ⟨hk, by rw [hv]; rfl⟩
  cases hst : hsGet item.entryKey b.state with
  | none => exact ⟨hgood2, hpw, hinsstate⟩
  | some st =>
    obtain ⟨sname, sns, sts, stags, skind, svalue⟩ := st
    cases svalue with
    | Counter value0 =>
      exact inv_arm_absolute_counter_delta items b item v value0 hk hv
        hgood2 hpw hstate
    | Gauge v2 => exact ⟨hgood2, hpw, hinsstate⟩
    | Set v2 => exact ⟨hgood2, hpw, hinsstate⟩
    | Distribution v2 r2 st2 => exact ⟨hgood2, hpw, hinsstate⟩
    | AggregatedHistogram a2 b2 c2 d2 => exact ⟨hgood2, hpw, hinsstate⟩
    | AggregatedSummary a2 b2 c2 d2 => exact ⟨hgood2, hpw, hinsstate⟩

/-- One `push` preserves the buffer invariant, extending the pushed-input
list by the new item. -/
theorem push_preserves_inv (items : List Metric) (b : MetricBuffer)
    (item : Metric) (h : buffInv items b) :
    buffInv (items ++ [item]) ((b.push item).1) := by
  obtain ⟨hgood, hpw, hstate⟩ := h
  have hgood2 : ∀ m ∈ b.metrics, goodMetric (items ++ [item]) m :=
    fun m hm => goodMetric_mono items item m (hgood m hm)
  have hmem : item ∈ items ++ [item] := by simp
  unfold MetricBuffer.push
  by_cases hfull : b.metrics.length ≥ b.max_events
  · simp only [hfull, if_true]
    exact ⟨hgood2, hpw, hstate⟩
  · simp only [hfull, if_false]
    cases hk : item.kind <;> cases hv : item.value
    · refine inv_arm_other items b item ?_ hgood2 hpw hstate
      refine ⟨fun _ => hk, fun d => ?_, fun d1 _ => ?_⟩
      · rw [hv] at d
        simp [MetricValue.disc] at d
      · rw [hv] at d1
        simp [MetricValue.disc] at d1
    · exact inv_arm_gauge items b item _ hk hv hgood2 hpw hstate
    · exact inv_arm_other items b item
        (goodMetric_of_other _ item hmem (by rw [hv]; simp [MetricValue.disc])
          (by rw [hv]; simp [MetricValue.disc])) hgood2 hpw hstate
    · exact inv_arm_other items b item
        (goodMetric_of_other _ item hmem (by rw [hv]; simp [MetricValue.disc])
          (by rw [hv]; simp [MetricValue.disc])) hgood2 hpw hstate
    · exact inv_arm_other items b item
        (goodMetric_of_other _ item hmem (by rw [hv]; simp [MetricValue.disc])
          (by rw [hv]; simp [MetricValue.disc])) hgood2 hpw hstate
    · exact inv_arm_other items b item
        (goodMetric_of_other _ item hmem (by rw [hv]; simp [MetricValue.disc])
          (by rw [hv]; simp [MetricValue.disc])) hgood2 hpw hstate
    · exact inv_arm_absolute_counter items b item _ hk hv hgood2 hpw hstate
    · refine inv_arm_absolute_replace items b item ?_ hgood2 hpw hstate
      refine ⟨fun d => ?_, fun _ => hk, fun _ d2 => ?_⟩
      · rw [hv] at d
        simp [MetricValue.disc] at d
      · rw [hv] at d2
        simp [MetricValue.disc] at d2
    · exact inv_arm_absolute_replace items b item
        (goodMetric_of_other _ item hmem (by rw [hv]; simp [MetricValue.disc])
          (by rw [hv]; simp [MetricValue.disc])) hgood2 hpw hstate
    · exact inv_arm_absolute_replace items b item
        (goodMetric_of_other _ item hmem (by rw [hv]; simp [MetricValue.disc])
          (by rw [hv]; simp [MetricValue.disc])) hgood2 hpw hstate
    · exact inv_arm_absolute_replace items b item
        (goodMetric_of_other _ item hmem (by rw [hv]; simp [MetricValue.disc])
          (by rw [hv]; simp [MetricValue.disc])) hgood2 hpw hstate
    · exact inv_arm_absolute_replace items b item
        (goodMetric_of_other _ item hmem (by rw [hv]; simp [MetricValue.disc])
          (by rw [hv]; simp [MetricValue.disc])) hgood2 hpw hstate

/-- The invariant holds for every buffer built by pushing a list of metrics
into a fresh buffer. -/
theorem pushAll_inv (max_events : Nat) (items : List Metric) :
    buffInv items (MetricBuffer.pushAll (MetricBuffer.new max_events) items) := by
  induction items using List.reverseRecOn with
  | nil =>
    refine ⟨by simp [MetricBuffer.pushAll, MetricBuffer.new], ?_, ?_⟩
    · simp [MetricBuffer.pushAll, MetricBuffer.new]
    · simp [MetricBuffer.pushAll, MetricBuffer.new]
  | append_singleton l i ih =>
    have hfold : MetricBuffer.pushAll (MetricBuffer.new max_events) (l ++ [i])
        = ((MetricBuffer.pushAll (MetricBuffer.new max_events) l).push i).1 := by
      unfold MetricBuffer.pushAll
      rw [List.foldl_append]
      rfl
    rw [hfold]
    exact push_preserves_inv l _ i ih

/-- The finishing map preserves every `MetricEntry` key. -/
theorem finish_entryKey_eq (b : MetricBuffer) :
    b.finish.map Metric.entryKey = b.metrics.map Metric.entryKey := by
  unfold MetricBuffer.finish
  rw [List.map_map]
  apply List.map_congr_left
  intro e _
  cases hv : e.value <;> simp [Metric.entryKey, MetricValue.disc, hv]

/-- Claim C2 as amended: in every batch produced by `finish()` after any
sequence of pushes into a fresh buffer, every Counter has kind Incremental,
every Gauge has kind Absolute (not Incremental as claimed), every other
value variant carries the `MetricEntry` key of some pushed input (and the
key contains the kind, so the input kind is retained), and no two batch
entries share a `MetricEntry` key. -/
theorem c2_finish_kinds_and_dedup (max_events : Nat) (items : List Metric) :
    (∀ m ∈ (MetricBuffer.pushAll (MetricBuffer.new max_events) items).finish,
      (m.value.disc = ValueDisc.counter → m.kind = MetricKind.Incremental) ∧
      (m.value.disc = ValueDisc.gauge → m.kind = MetricKind.Absolute) ∧
      (m.value.disc ≠ ValueDisc.counter → m.value.disc ≠ ValueDisc.gauge →
        ∃ x ∈ items, x.entryKey = m.entryKey)) ∧
    ((MetricBuffer.pushAll (MetricBuffer.new max_events) items).finish).Pairwise
      keyNe := by
  obtain ⟨hgood, hpw, -⟩ := pushAll_inv max_events items
  constructor
  · intro m hm
    unfold MetricBuffer.finish at hm
    obtain ⟨e, he, hme⟩ := List.mem_map.mp hm
    have hkeys : m.entryKey = e.entryKey ∧ m.kind = e.kind ∧
        m.value.disc = e.value.disc := by
      rw [← hme]
      cases hv : e.value <;> simp [Metric.entryKey, MetricValue.disc, hv]
    obtain ⟨hg1, hg2, hg3⟩ := hgood e he
    refine ⟨?_, ?_, ?_⟩
    · intro d
      rw [hkeys.2.2] at d
      rw [hkeys.2.1]
      exact hg1 d
    · intro d
      rw [hkeys.2.2] at d
      rw [hkeys.2.1]
      exact hg2 d
    · intro d1 d2
      rw [hkeys.2.2] at d1 d2
      obtain ⟨x, hx, hk⟩ := hg3 d1 d2
      exact ⟨x, hx, by rw [hk, hkeys.1]⟩
  · have h1 : ((MetricBuffer.pushAll (MetricBuffer.new max_events)
        items).metrics.map Metric.entryKey).Pairwise (· ≠ ·) := by
      rw [List.pairwise_map]
      exact hpw
    rw [← finish_entryKey_eq] at h1
    rw [List.pairwise_map] at h1
    exact h1

/-- Claim C2, counterexample: pushing a single incremental gauge yields a
batch whose only entry is a Gauge of kind Absolute, not Incremental. -/
theorem c2_counterexample_gauge_is_absolute :
    (MetricBuffer.pushAll (MetricBuffer.new 6) [gIncGauge 1]).finish
      = [{ name := "g", nameSpace := none, timestamp := none, tags := none,
           kind := MetricKind.Absolute,
           value := MetricValue.Gauge ((0 : ℚ) + 1) }] ∧
    MetricKind.Absolute ≠ MetricKind.Incremental :=
  ⟨rfl, by decide⟩

/-- Witness for the amended C2 theorem at a single incremental gauge push. -/
theorem c2_finish_kinds_witness :
    ({ name := "g", nameSpace := none, timestamp := none, tags := none,
       kind := MetricKind.Absolute,
       value := MetricValue.Gauge ((0 : ℚ) + 1) } : Metric)
        ∈ (MetricBuffer.pushAll (MetricBuffer.new 6) [gIncGauge 1]).finish ∧
    ((({ name := "g", nameSpace := none, timestamp := none, tags := none,
         kind := MetricKind.Absolute,
         value := MetricValue.Gauge ((0 : ℚ) + 1) } : Metric).value.disc
          = ValueDisc.gauge →
       ({ name := "g", nameSpace := none, timestamp := none, tags := none,
          kind := MetricKind.Absolute,
          value := MetricValue.Gauge ((0 : ℚ) + 1) } : Metric).kind
          = MetricKind.Absolute) ∧
     ((MetricBuffer.pushAll (MetricBuffer.new 6) [gIncGauge 1]).finish).Pairwise
       keyNe) :=
  ⟨List.mem_singleton.mpr rfl,
   ((c2_finish_kinds_and_dedup 6 [gIncGauge 1]).1 _
      (List.mem_singleton.mpr rfl)).2.1,
   (c2_finish_kinds_and_dedup 6 [gIncGauge 1]).2⟩

theorem findDelim_none (delim : Nat) (l : List Nat)
    (h : findDelim delim l = none) : ¬ delim ∈ l := by
  induction l with
  | nil => simp
  | cons b t ih =>
    rw [findDelim] at h
    by_cases hb : b = delim
    · simp [hb] at h
    · simp only [hb, if_false] at h
      cases hft : findDelim delim t with
      | some j => rw [hft] at h; simp at h
      | none =>
        simp only [List.mem_cons]
        rintro (h2 | h2)
        · exact hb h2.symm
        · exact ih hft h2

theorem findDelim_some (delim : Nat) (l : List Nat) (i : Nat)
    (h : findDelim delim l = some i) :
    i < l.length ∧ l[i]? = some delim ∧ ¬ delim ∈ l.take i := by
  induction l generalizing i with
  | nil => simp [findDelim] at h
  | cons b t ih =>
    rw [findDelim] at h
    by_cases hb : b = delim
    · simp only [hb, if_true] at h
      obtain rfl : (0 : Nat) = i := by injection h
      simp [hb]
    · simp only [hb, if_false] at h
      cases hf : findDelim delim t with
      | none => rw [hf] at h; simp at h
      | some j =>
        rw [hf] at h
        obtain rfl : j + 1 = i := by simpa using h
        obtain ⟨ih1, ih2, ih3⟩ := ih j hf
        refine ⟨by simpa using ih1, by simpa using ih2, ?_⟩
        simp only [List.take_succ_cons, List.mem_cons]
        rintro (h2 | h2)
        · exact hb h2.symm
        · exact ih3 h2

theorem findDelim_append (delim : Nat) (r t : List Nat) (hr : ¬ delim ∈ r) :
    findDelim delim (r ++ delim :: t) = some r.length := by
  induction r with
  | nil => simp [findDelim]
  | cons b r2 ih =>
    have hb : ¬ b = delim := fun h => hr (by simp [h])
    rw [List.cons_append, findDelim, if_neg hb,
      ih (fun h => hr (by simp [h]))]
    rfl

/-- Accounting of one `read_until_with_max_size` loop run: the consumed
byte count is exactly the advance of the reader (delimiters and discarded
over-long lines included), a completed line reports the full total and its
consumed span ends with the delimiter, and the line buffer never contains
the delimiter. -/
theorem readUntilGo_spec (delim max_size : Nat) (fuel : Nat) :
    ∀ (rest buf : List Nat) (discarding : Bool) (total : Nat),
    ∃ c,
      (readUntilGo delim max_size fuel rest buf discarding total).1
        = total + c ∧
      c ≤ rest.length ∧
      (readUntilGo delim max_size fuel rest buf discarding total).2.1
        = rest.drop c ∧
      (∀ t, (readUntilGo delim max_size fuel rest buf discarding total).2.2.2
          = some t →
        t = total + c ∧ 1 ≤ c ∧ (rest.take c).getLast? = some delim) ∧
      (¬ delim ∈ buf →
        ¬ delim ∈
          (readUntilGo delim max_size fuel rest buf discarding total).2.2.1) := by
  induction fuel with
  | zero =>
    intro rest buf discarding total
    exact ⟨0, by simp [readUntilGo], by simp, by simp [readUntilGo],
      by simp [readUntilGo], by simp [readUntilGo]⟩
  | succ fuel ih =>
    intro rest buf discarding total
    rw [readUntilGo]
    cases hf : findDelim delim rest with
    | some i =>
      obtain ⟨hi, hgeti, hnotin⟩ := findDelim_some delim rest i hf
      simp only
      by_cases hd2 : (if !discarding
          && (if discarding then buf else buf ++ rest.take i).length > max_size
          then true else discarding) = true
      · rw [if_pos hd2]
        obtain ⟨c2, g1, g2, g3, g4, g5⟩ :=
          ih (rest.drop (i + 1)) [] false (total + (i + 1))
        refine ⟨(i + 1) + c2, ?_, ?_, ?_, ?_, ?_⟩
        · rw [g1]
          omega
        · rw [List.length_drop] at g2
          omega
        · rw [g3, List.drop_drop]
        · intro t ht
          obtain ⟨e1, e2, e3⟩ := g4 t ht
          refine ⟨by rw [e1]; omega, by omega, ?_⟩
          rw [List.take_add, List.getLast?_append, e3]
          rfl
        · intro _
          exact g5 (by simp)
      · rw [if_neg hd2]
        refine ⟨i + 1, by simp, by omega, rfl, ?_, ?_⟩
        · intro t ht
          refine ⟨by simpa using ht.symm, by omega, ?_⟩
          rw [List.take_succ, hgeti, List.getLast?_append]
          rfl
        · intro hbuf
          simp only [Option.some.injEq] at hd2
          have hdisc : discarding = false := by
            by_contra hdt
            rw [Bool.not_eq_false] at hdt
            rw [hdt] at hd2
            simp at hd2
          rw [hdisc]
          simp only [if_false]
          intro hmem
          rcases List.mem_append.mp hmem with h2 | h2
          · exact hbuf h2
          · exact hnotin h2
    | none =>
      simp only
      by_cases hz : rest.length = 0
      · rw [if_pos hz]
        have hrest : rest = [] := List.length_eq_zero.mp hz
        refine ⟨0, by omega, by omega, by simp [hrest], by simp, ?_⟩
        intro hbuf
        subst hrest
        cases discarding <;> simpa using hbuf
      · rw [if_neg hz]
        obtain ⟨c2, g1, g2, g3, g4, g5⟩ :=
          ih [] (if discarding then buf else buf ++ rest)
            (if !discarding
              && (if discarding then buf else buf ++ rest).length > max_size
              then true else discarding) (total + rest.length)
        have hc2 : c2 = 0 := by simpa using g2
        refine ⟨rest.length, by rw [g1, hc2]; omega, le_refl _, ?_, ?_, ?_⟩
        · rw [g3, hc2]
          simp [List.drop_length]
        · intro t ht
          obtain ⟨-, e2, -⟩ := g4 t ht
          omega
        · intro hbuf
          refine g5 ?_
          cases hdisc : discarding
          · intro hmem
            simp at hmem
            rcases hmem with h2 | h2
            · exact hbuf h2
            · exact findDelim_none delim rest hf h2
          · simpa using hbuf

/-- Claim C9: after any `read_line` call, the file position has advanced by
exactly the number of bytes consumed from the reader (delimiters and bytes
of over-long discarded lines included); a completed line never contains the
newline delimiter (it is stripped), and for a findable file the consumed
span of a completed line ends with that delimiter. The final conjuncts
replicate the source's own `test_read_until_with_max_size` unit test:
positions 6, 34 and 46 with the over-long lines discarded. -/
theorem c9_read_line_bytes_accounted (w : FileWatcher)
    (hbuf : ¬ 10 ∈ w.buf) :
    (∃ consumed,
      (w.read_line).1.file_position = w.file_position + consumed ∧
      consumed ≤ w.reader.length ∧
      (w.read_line).1.reader = w.reader.drop consumed ∧
      (∀ line, (w.read_line).2 = some line → ¬ 10 ∈ line) ∧
      (w.findable = true → ∀ line, (w.read_line).2 = some line →
        1 ≤ consumed ∧ (w.reader.take consumed).getLast? = some 10)) ∧
    read_until_with_max_size 10 10
        (strBytes "short\nthis is too long\nexact size\n11 eleven11\n") []
      = (6, strBytes "this is too long\nexact size\n11 eleven11\n",
         strBytes "short", some 6) ∧
    read_until_with_max_size 10 10
        (strBytes "this is too long\nexact size\n11 eleven11\n") []
      = (28, strBytes "11 eleven11\n", strBytes "exact size", some 28) ∧
    read_until_with_max_size 10 10 (strBytes "11 eleven11\n") []
      = (12, [], [], none) := by
  refine ⟨?_, by decide, by decide, by decide⟩
  obtain ⟨c, g1, g2, g3, g4, g5⟩ :=
    readUntilGo_spec 10 w.max_line_bytes (w.reader.length + 2) w.reader
      w.buf false 0
  refine ⟨c, ?_⟩
  simp only [FileWatcher.read_line, read_until_with_max_size]
  cases hres : (readUntilGo 10 w.max_line_bytes (w.reader.length + 2)
      w.reader w.buf false 0).2.2.2 with
  | some t0 =>
    simp only
    refine ⟨by rw [g1]; omega, g2, g3, ?_, ?_⟩
    · intro line hline
      obtain rfl : _ = line := by injection hline
      exact g5 hbuf
    · intro _ line hline
      obtain ⟨-, e2, e3⟩ := g4 t0 hres
      exact ⟨e2, e3⟩
  | none =>
    cases hfind : w.findable
    · simp only [Bool.not_false, if_true]
      refine ⟨by rw [g1]; omega, g2, g3, ?_, ?_⟩
      · intro line hline
        obtain rfl : _ = line := by injection hline
        exact g5 hbuf
      · intro hcontra
        simp at hcontra
    · simp only [Bool.not_true, Bool.false_eq_true, if_false]
      refine ⟨by rw [g1]; omega, g2, g3, ?_, ?_⟩
      · intro line hline
        cases hline
      · intro _ line hline
        cases hline

/-- Reading at end-of-data on a findable file: nothing is consumed and no
line is produced. -/
theorem read_line_at_eof (w : FileWatcher) (hr : w.reader = [])
    (hb : w.buf = []) (hf : w.findable = true) : w.read_line = (w, none) := by
  obtain ⟨wr, wp, wfind, wd, wm, wb⟩ := w
  simp only at hr hb hf
  subst hr hb hf
  rfl

/-- Reading one complete record: a watcher with an empty buffer whose reader
starts with a delimiter-free record of admissible length followed by the
newline hands out exactly that record and advances the position past the
record and its delimiter. -/
theorem read_line_record (w : FileWatcher) (r t : List Nat)
    (hbuf : w.buf = []) (hreader : w.reader = r ++ 10 :: t)
    (hr10 : ¬ 10 ∈ r) (hlen : r.length ≤ w.max_line_bytes) :
    w.read_line
      = ({ w with
            reader := t
            file_position := w.file_position + (r.length + 1)
            buf := [] }, some r) := by
  obtain ⟨wr, wp, wfind, wd, wm, wb⟩ := w
  simp only at hbuf hreader hlen ⊢
  subst hbuf hreader
  have hngt : ¬ (([] : List Nat) ++ (r ++ 10 :: t).take r.length).length > wm := by
    rw [List.nil_append, List.take_left]
    omega
  simp only [FileWatcher.read_line, read_until_with_max_size]
  rw [show (r ++ 10 :: t).length + 2 = ((r ++ 10 :: t).length + 1) + 1
    from rfl]
  rw [readUntilGo, findDelim_append 10 r t hr10]
  simp only [Bool.not_false, Bool.true_and, hngt, decide_eq_true_eq,
    if_false, List.nil_append, List.take_left]
  have hdrop : (r ++ 10 :: t).drop (r.length + 1) = t := by
    rw [show r ++ 10 :: t = (r ++ [10]) ++ t by simp]
    rw [show r.length + 1 = (r ++ [10]).length by simp]
    exact List.drop_left _ _
  have hlt : ¬ wm < r.length := by omega
  simp [hdrop, hlt]

/-- Content of a cons of records: the head record, a newline, then the
content of the tail. -/
theorem recordsContent_cons (r : List Nat) (rt : List (List Nat)) :
    recordsContent (r :: rt) = r ++ 10 :: recordsContent rt := by
  simp [recordsContent]

/-- The reading-phase driver on a findable watcher positioned at the start
of a well-formed record stream collects exactly the non-empty records, in
order: empty records are consumed but skipped by the `if line.is_empty()
\x7b break; \x7d` branch of `FileServer::run`. -/
theorem runCollect_records (rs : List (List Nat)) :
    ∀ (fuel : Nat) (w : FileWatcher),
      w.buf = [] → w.findable = true → w.reader = recordsContent rs →
      (∀ r ∈ rs, ¬ 10 ∈ r ∧ r.length ≤ w.max_line_bytes) →
      (recordsContent rs).length + 1 ≤ fuel →
      runCollect fuel w = rs.filter (· ≠ []) := by
  induction rs with
  | nil =>
    intro fuel w hb hf hr _ hfuel
    obtain ⟨f, rfl⟩ : ∃ f, fuel = f + 1 := ⟨fuel - 1, by omega⟩
    rw [runCollect, read_line_at_eof w hr hb hf]
    rfl
  | cons r rt ih =>
    intro fuel w hb hf hr hrec hfuel
    obtain ⟨f, rfl⟩ : ∃ f, fuel = f + 1 := ⟨fuel - 1, by omega⟩
    rw [recordsContent_cons] at hr
    have hline := read_line_record w r (recordsContent rt) hb hr
      (hrec r (by simp)).1 (hrec r (by simp)).2
    have hnext : runCollect f
        { w with
          reader := recordsContent rt
          file_position := w.file_position + (r.length + 1)
          buf := [] }
        = rt.filter (· ≠ []) := by
      refine ih f _ rfl hf rfl ?_ ?_
      · intro x hx
        exact hrec x (by simp [hx])
      · rw [recordsContent_cons] at hfuel
        simp only [List.length_append, List.length_cons] at hfuel
        omega
    rw [runCollect, hline]
    show (if r = [] then runCollect f
        { w with
          reader := recordsContent rt
          file_position := w.file_position + (r.length + 1)
          buf := [] }
      else r :: runCollect f
        { w with
          reader := recordsContent rt
          file_position := w.file_position + (r.length + 1)
          buf := [] })
      = List.filter (fun x => decide (x ≠ [])) (r :: rt)
    rw [List.filter_cons]
    by_cases hre : r = []
    · rw [if_pos hre, hnext]
      simp [hre]
    · rw [if_neg hre, hnext]
      simp [hre]

/-- Counterexample to claim C3: the three-record file with records "a",
"" and "b" (content `a\n\nb\n`) emits only the two lines "a" and "b": the
`if line.is_empty() \x7b break; \x7d` branch of `FileServer::run` consumes
the empty record without sending it, so the emitted multiset has two
elements while the file has three records. -/
theorem c3_counterexample_empty_record_dropped :
    emittedLines (recordsContent [[97], [], [98]]) 100 = [[97], [98]] ∧
    ((emittedLines (recordsContent [[97], [], [98]]) 100 :
        Multiset (List Nat))
      ≠ (([[97], [], [98]] : List (List Nat)) : Multiset (List Nat))) := by
  refine ⟨by decide, fun h => ?_⟩
  have hc := congrArg Multiset.card h
  simp only [Multiset.coe_card] at hc
  revert hc
  decide

/-- Claim C3 (amended): for a non-gzipped file consisting of
newline-terminated records none of which contains a newline byte or
exceeds `max_line_bytes`, watched from position 0 and findable throughout,
the lines emitted by the reading phase of `FileServer::run` are exactly the
*non-empty* records in file order (hence equal as multisets): empty records
are consumed but never emitted, because `FileServer::run` breaks out of its
read loop on an empty line without sending it. -/
theorem c3_emitted_lines_are_nonempty_records (rs : List (List Nat))
    (max : Nat) (hgz : is_gzipped (recordsContent rs) = false)
    (hrec : ∀ r ∈ rs, ¬ 10 ∈ r ∧ r.length ≤ max) :
    emittedLines (recordsContent rs) max = rs.filter (· ≠ []) ∧
    ((emittedLines (recordsContent rs) max : Multiset (List Nat))
      = ((rs.filter (· ≠ []) : List (List Nat)) : Multiset (List Nat))) := by
  have hw : FileWatcher.new (recordsContent rs) 0 false max []
      = { reader := recordsContent rs, file_position := 0, findable := true,
          is_dead := false, max_line_bytes := max, buf := [] } := by
    simp [FileWatcher.new, hgz]
  have h1 : emittedLines (recordsContent rs) max = rs.filter (· ≠ []) := by
    rw [emittedLines, hw]
    exact runCollect_records rs _ _ rfl rfl rfl hrec (by omega)
  exact ⟨h1, by rw [h1]⟩

/-- Witness for C3 at the two-record file `a\nb\n`: both hypotheses hold
and both records come out. -/
theorem c3_emitted_lines_witness :
    is_gzipped (recordsContent [[97], [98]]) = false ∧
    (∀ r ∈ ([[97], [98]] : List (List Nat)), ¬ 10 ∈ r ∧ r.length ≤ 100) ∧
    emittedLines (recordsContent [[97], [98]]) 100
      = ([[97], [98]] : List (List Nat)).filter (· ≠ []) :=
  ⟨by decide, by decide,
    (c3_emitted_lines_are_nonempty_records [[97], [98]] 100 (by decide)
      (by decide)).1⟩

/-- Witness for C9 at a concrete watcher over `ab\ncd\n`: the empty-buffer
hypothesis holds and one `read_line` call advances the position by exactly
the bytes consumed from the reader. -/
theorem c9_read_line_bytes_witness :
    ¬ 10 ∈ (FileWatcher.new (strBytes "ab\ncd\n") 0 false 100 []).buf ∧
    ∃ consumed,
      ((FileWatcher.new (strBytes "ab\ncd\n") 0 false 100
          []).read_line).1.file_position
        = (FileWatcher.new (strBytes "ab\ncd\n") 0 false 100
            []).file_position + consumed ∧
      consumed ≤ (FileWatcher.new (strBytes "ab\ncd\n") 0 false 100
          []).reader.length ∧
      ((FileWatcher.new (strBytes "ab\ncd\n") 0 false 100
          []).read_line).1.reader
        = (FileWatcher.new (strBytes "ab\ncd\n") 0 false 100
            []).reader.drop consumed := by
  refine ⟨by decide, ?_⟩
  obtain ⟨⟨c, h1, h2, h3, -, -⟩, -, -, -⟩ :=
    c9_read_line_bytes_accounted
      (FileWatcher.new (strBytes "ab\ncd\n") 0 false 100 []) (by decide)
  exact ⟨c, h1, h2, h3⟩
